import Mathlib

/-!
Formal development for the P2P message-processing core of a Bitcoin node
(net_processing.cpp, blockfilter.cpp, crypto/chacha20.cpp), as a shallow
embedding in Lean 4.  Machine integers are modelled as `Nat`/`Int`/`ℚ` with
explicit wrap-around (`% 2^w`) where the C++ type can overflow; fallible
code returns `Option`/`Except`.
-/

namespace NetProcessing

/-! ## Headers continuity (net_processing.cpp)

`PeerManagerImpl::CheckHeadersAreContinuous` (net_processing.cpp:2436-2446)
walks a headers vector keeping `hashLastBlock` (initially the null uint256)
and rejects as soon as a header's `hashPrevBlock` differs from the previous
header's `GetHash()`; the comparison is skipped while `hashLastBlock` is
null.

Modelled from the spec: `CBlockHeader::GetHash` (primitives/block.h, not
among the studied sources) is the header's SHA-256d hash; it is treated as
an opaque 256-bit value carried by the header, with `0` playing the role of
the null `uint256` (`IsNull()`).
-/

/-- The two fields of a `CBlockHeader` that `CheckHeadersAreContinuous`
inspects: `hashPrevBlock` and the result of `GetHash()`. -/
structure BlockHeader where
  hashPrevBlock : Nat
  getHash : Nat
deriving DecidableEq, Repr

/-- The loop of `PeerManagerImpl::CheckHeadersAreContinuous`
(net_processing.cpp:2439-2444): `hashLastBlock` starts null (`0`), and a
header fails the check only when `hashLastBlock` is non-null and
`hashPrevBlock` differs from it. -/
def checkHeadersLoop (hashLastBlock : Nat) : List BlockHeader → Bool
  | [] => true
  | header :: rest =>
    if hashLastBlock ≠ 0 ∧ header.hashPrevBlock ≠ hashLastBlock then false
    else checkHeadersLoop header.getHash rest

/-- `PeerManagerImpl::CheckHeadersAreContinuous` (net_processing.cpp:2436-2446). -/
def checkHeadersAreContinuous (headers : List BlockHeader) : Bool :=
  checkHeadersLoop 0 headers

/-- The chaining condition of the claim: every header's `hashPrevBlock`
equals the hash of its predecessor. -/
def Chained (headers : List BlockHeader) : Prop :=
  ∀ i : Nat, (hi : i + 1 < headers.length) →
    (headers.get ⟨i + 1, hi⟩).hashPrevBlock
      = (headers.get ⟨i, Nat.lt_of_succ_lt hi⟩).getHash

theorem chained_iff_chain' (headers : List BlockHeader) :
    Chained headers ↔
      headers.Chain' (fun a b => b.hashPrevBlock = a.getHash) := by
  rw [List.chain'_iff_get]
  constructor
  · intro h i hi
    exact h i (by omega)
  · intro h i hi
    exact h i (by omega)

theorem checkHeadersLoop_of_chainedFrom (last : Nat) (headers : List BlockHeader)
    (h : headers.Chain' (fun a b => b.hashPrevBlock = a.getHash))
    (hhead : ∀ x ∈ headers.head?, last ≠ 0 → x.hashPrevBlock = last) :
    checkHeadersLoop last headers = true := by
  induction headers generalizing last with
  | nil => rfl
  | cons a rest ih =>
    rw [checkHeadersLoop]
    rw [List.chain'_cons'] at h
    have ha : ¬ (last ≠ 0 ∧ a.hashPrevBlock ≠ last) := by
      intro ⟨h0, hne⟩
      exact hne (hhead a rfl h0)
    rw [if_neg ha]
    exact ih a.getHash h.2 (fun x hx _ => h.1 x hx)

theorem checkHeadersLoop_chained (last : Nat) (headers : List BlockHeader)
    (hnn : ∀ h ∈ headers, h.getHash ≠ 0)
    (hok : checkHeadersLoop last headers = true) :
    headers.Chain' (fun a b => b.hashPrevBlock = a.getHash) := by
  induction headers generalizing last with
  | nil => exact List.chain'_nil
  | cons a rest ih =>
    rw [checkHeadersLoop] at hok
    by_cases hc : last ≠ 0 ∧ a.hashPrevBlock ≠ last
    · rw [if_pos hc] at hok
      cases hok
    · rw [if_neg hc] at hok
      have hrest := ih a.getHash (fun h hh => hnn h (List.mem_cons_of_mem a hh)) hok
      rw [List.chain'_cons']
      refine ⟨?_, hrest⟩
      intro y hy
      -- the head of `rest` was compared against `a.getHash`, which is non-null
      cases rest with
      | nil => cases hy
      | cons b rest' =>
        rw [List.head?_cons, Option.mem_some_iff] at hy
        subst hy
        rw [checkHeadersLoop] at hok
        by_cases hc' : a.getHash ≠ 0 ∧ b.hashPrevBlock ≠ a.getHash
        · rw [if_pos hc'] at hok
          cases hok
        · have hga : a.getHash ≠ 0 := hnn a (List.mem_cons_self a _)
          by_contra hne
          exact hc' ⟨hga, hne⟩

/-- C8 (counterexample): the claim "if `check_headers_are_continuous(H)`
returns true then for every i ≥ 1, `H[i].hashPrevBlock` equals the hash of
`H[i-1]`" is false as stated: when a header's hash is the null value `0`
(the loop's sentinel), the comparison for its successor is skipped.  With
`H = [⟨prev := 5, hash := 0⟩, ⟨prev := 7, hash := 9⟩]` the check returns
true although `H[1].hashPrevBlock = 7 ≠ 0 = hash(H[0])`. -/
theorem checkHeaders_nullHash_cex :
    checkHeadersAreContinuous
        [BlockHeader.mk 5 0, BlockHeader.mk 7 9] = true ∧
      ¬ Chained [BlockHeader.mk 5 0, BlockHeader.mk 7 9] := by
  constructor
  · rfl
  · intro h
    exact absurd (h 0 (by decide)) (by decide)

/-- C8 (amended): provided no header hashes to the null sentinel `0`,
`CheckHeadersAreContinuous` returns true exactly when every header's
`hashPrevBlock` equals the previous header's hash; the right-to-left
direction (every chained list, including the empty and singleton lists,
passes the check) holds without the sentinel proviso. -/
theorem checkHeadersAreContinuous_correct (headers : List BlockHeader) :
    ((∀ h ∈ headers, h.getHash ≠ 0) →
        checkHeadersAreContinuous headers = true → Chained headers) ∧
      (Chained headers → checkHeadersAreContinuous headers = true) := by
  constructor
  · intro hnn hok
    rw [chained_iff_chain']
    exact checkHeadersLoop_chained 0 headers hnn hok
  · intro hch
    rw [chained_iff_chain'] at hch
    exact checkHeadersLoop_of_chainedFrom 0 headers hch
      (fun x _ h0 => absurd rfl h0)

/-- C8 (witness): the amended equivalence evaluated on a concrete chained
two-header list. -/
theorem checkHeadersAreContinuous_correct_witness :
    checkHeadersAreContinuous [BlockHeader.mk 5 3, BlockHeader.mk 3 4] = true :=
  (checkHeadersAreContinuous_correct
      [BlockHeader.mk 5 3, BlockHeader.mk 3 4]).2 (by
    intro i hi
    have hi2 : i + 1 < 2 := by simpa using hi
    have h0 : i = 0 := by omega
    subst h0
    rfl)

/-! ## getheaders rate limiting (net_processing.cpp)

`HEADERS_RESPONSE_TIME` (net_processing.cpp:67) is 2 minutes;
`PeerManagerImpl::MaybeSendGetHeaders` (net_processing.cpp:2588-2602)
pushes a `getheaders` and stores the current time in
`peer.m_last_getheaders_timestamp` only when more than
`HEADERS_RESPONSE_TIME` has elapsed since the stored timestamp.  Times are
modelled as `Int` microseconds (`NodeClock::time_point`); a default
constructed time point is the epoch `0`. -/

/-- `HEADERS_RESPONSE_TIME{2min}` (net_processing.cpp:67), in microseconds. -/
def HEADERS_RESPONSE_TIME : Int := 120000000

/-- `PeerManagerImpl::MaybeSendGetHeaders` (net_processing.cpp:2588-2602):
given the current time and the peer's `m_last_getheaders_timestamp`,
returns whether a `getheaders` was pushed and the updated timestamp. -/
def maybeSendGetHeaders (now lastTimestamp : Int) : Bool × Int :=
  if now - lastTimestamp > HEADERS_RESPONSE_TIME then (true, now)
  else (false, lastTimestamp)

/-- The times at which a sequence of `MaybeSendGetHeaders` calls (at the
given call times, threading `m_last_getheaders_timestamp` through) actually
push a `getheaders` message. -/
def getheadersSendTimes (lastTimestamp : Int) : List Int → List Int
  | [] => []
  | t :: rest =>
    match maybeSendGetHeaders t lastTimestamp with
    | (true, ts) => t :: getheadersSendTimes ts rest
    | (false, ts) => getheadersSendTimes ts rest

theorem getheadersSendTimes_lb (lastTimestamp : Int) (calls : List Int) :
    ∀ x ∈ getheadersSendTimes lastTimestamp calls,
      lastTimestamp + HEADERS_RESPONSE_TIME < x := by
  induction calls generalizing lastTimestamp with
  | nil => intro x hx; cases hx
  | cons t rest ih =>
    intro x hx
    have hH : HEADERS_RESPONSE_TIME = 120000000 := rfl
    rw [getheadersSendTimes] at hx
    rw [maybeSendGetHeaders] at hx
    by_cases hc : t - lastTimestamp > HEADERS_RESPONSE_TIME
    · rw [if_pos hc] at hx
      simp only [List.mem_cons] at hx
      rcases hx with rfl | hx
      · omega
      · have := ih t x hx
        omega
    · rw [if_neg hc] at hx
      exact ih lastTimestamp x hx

theorem getheadersSendTimes_pairwise (lastTimestamp : Int) (calls : List Int) :
    (getheadersSendTimes lastTimestamp calls).Pairwise
      (fun a b => a + HEADERS_RESPONSE_TIME < b) := by
  induction calls generalizing lastTimestamp with
  | nil => exact List.Pairwise.nil
  | cons t rest ih =>
    rw [getheadersSendTimes, maybeSendGetHeaders]
    by_cases hc : t - lastTimestamp > HEADERS_RESPONSE_TIME
    · rw [if_pos hc]
      exact List.pairwise_cons.mpr ⟨getheadersSendTimes_lb t rest, ih t⟩
    · rw [if_neg hc]
      exact ih lastTimestamp

/-- C6: over any sequence of `MaybeSendGetHeaders` calls for one peer
(state threaded through `m_last_getheaders_timestamp`), at most one
`getheaders` message is pushed within any window of length
`HEADERS_RESPONSE_TIME` (2 minutes): a call sends (and records its time)
only when more than 2 minutes have elapsed since the previously recorded
`getheaders`, and otherwise sends nothing. -/
theorem pairwise_gap_filter_window (a gap : Int) (L : List Int)
    (hpw : L.Pairwise (fun x y => x + gap < y)) :
    (L.filter (fun t => a ≤ t ∧ t ≤ a + gap)).length ≤ 1 := by
  induction L with
  | nil => simp
  | cons x rest ih =>
    rw [List.pairwise_cons] at hpw
    by_cases hx : a ≤ x ∧ x ≤ a + gap
    · rw [List.filter_cons_of_pos (by simpa using hx)]
      have hnil : rest.filter (fun t => a ≤ t ∧ t ≤ a + gap) = [] := by
        rw [List.filter_eq_nil_iff]
        intro b hb
        have := hpw.1 b hb
        simp only [decide_eq_true_eq, not_and, not_le]
        omega
      rw [hnil]
      simp
    · rw [List.filter_cons_of_neg (by simpa using hx)]
      exact ih hpw.2

/-- C6: over any sequence of `MaybeSendGetHeaders` calls for one peer
(state threaded through `m_last_getheaders_timestamp`), at most one
`getheaders` message is pushed within any window of length
`HEADERS_RESPONSE_TIME` (2 minutes): a call sends (and records its time)
only when more than 2 minutes have elapsed since the previously recorded
`getheaders`, and otherwise sends nothing. -/
theorem maybeSendGetHeaders_window (lastTimestamp a : Int) (calls : List Int) :
    ((getheadersSendTimes lastTimestamp calls).filter
        (fun t => a ≤ t ∧ t ≤ a + HEADERS_RESPONSE_TIME)).length ≤ 1 :=
  pairwise_gap_filter_window a HEADERS_RESPONSE_TIME _
    (getheadersSendTimes_pairwise lastTimestamp calls)


/-! ## Unconnecting headers handling (net_processing.cpp)

A `headers` message first clears `m_last_getheaders_timestamp`
(net_processing.cpp:4358-4360).  `ProcessHeadersMessage` then dispatches a
non-empty batch whose first header's previous block is unknown to the
block index either to `HandleFewUnconnectingHeaders` (when the batch has
at most `MAX_BLOCKS_TO_ANNOUNCE` headers) or to `Misbehaving(10)`
(net_processing.cpp:2797-2811).  `HandleFewUnconnectingHeaders`
(net_processing.cpp:2407-2434) increments `nUnconnectingHeaders`, tries to
send a `getheaders`, and assigns 20 misbehavior points whenever the
counter is a multiple of `MAX_UNCONNECTING_HEADERS`. -/

/-- `MAX_BLOCKS_TO_ANNOUNCE` (net_processing.cpp:134). -/
def MAX_BLOCKS_TO_ANNOUNCE : Nat := 8

/-- `MAX_UNCONNECTING_HEADERS` (net_processing.cpp:136). -/
def MAX_UNCONNECTING_HEADERS : Nat := 10

/-- The per-peer state touched by the unconnecting-headers path:
`CNodeState::nUnconnectingHeaders` (net_processing.cpp:426) and
`Peer::m_last_getheaders_timestamp` (net_processing.cpp:383). -/
structure UnconnectingState where
  nUnconnectingHeaders : Nat
  lastGetheadersTimestamp : Int
deriving DecidableEq, Repr

/-- `PeerManagerImpl::HandleFewUnconnectingHeaders`
(net_processing.cpp:2407-2434): increments `nUnconnectingHeaders`, calls
`MaybeSendGetHeaders`, and assigns `Misbehaving(20)` whenever
`nUnconnectingHeaders % MAX_UNCONNECTING_HEADERS == 0`.  Returns the new
state, whether a `getheaders` went out, and the misbehavior points
assigned. -/
def handleFewUnconnectingHeaders (now : Int) (s : UnconnectingState) :
    UnconnectingState × Bool × Nat :=
  let n := s.nUnconnectingHeaders + 1
  let sent := maybeSendGetHeaders now s.lastGetheadersTimestamp
  let points := if n % MAX_UNCONNECTING_HEADERS = 0 then 20 else 0
  (⟨n, sent.2⟩, sent.1, points)

/-- Receipt of a `headers` message of `count` headers whose first header's
previous block is unknown: the handler resets
`m_last_getheaders_timestamp` (net_processing.cpp:4360) before
`ProcessHeadersMessage` reaches the unconnecting branch
(net_processing.cpp:2801-2810). -/
def processUnconnectingHeadersMsg (now : Int) (count : Nat)
    (s : UnconnectingState) : UnconnectingState × Bool × Nat :=
  let s0 : UnconnectingState := ⟨s.nUnconnectingHeaders, 0⟩
  if count ≤ MAX_BLOCKS_TO_ANNOUNCE then handleFewUnconnectingHeaders now s0
  else (s0, false, 10)

/-- A run of unconnecting `headers` messages, each given as
(receive time, header count); returns the final state, the total number of
`getheaders` messages pushed, and the total misbehavior points assigned. -/
def processUnconnectingRun (s : UnconnectingState) :
    List (Int × Nat) → UnconnectingState × Nat × Nat
  | [] => (s, 0, 0)
  | (t, count) :: rest =>
    let step := processUnconnectingHeadersMsg t count s
    let tail := processUnconnectingRun step.1 rest
    (tail.1, (if step.2.1 then 1 else 0) + tail.2.1, step.2.2 + tail.2.2)

/-- C3: a run of `n` headers messages, each with between 1 and
`MAX_BLOCKS_TO_ANNOUNCE = 8` headers whose first previous block is unknown
and each received later than 2 minutes after the epoch, advances the
peer's `nUnconnectingHeaders` counter by exactly `n`, pushes exactly `n`
follow-up `getheaders` messages (the timestamp reset on `headers` receipt
makes `MaybeSendGetHeaders` succeed every time), and assigns one 20-point
misbehavior event exactly at every message where the counter reaches a
multiple of `MAX_UNCONNECTING_HEADERS = 10` — in total
`20 * ((c + n) / 10 - c / 10)` points from a starting counter `c`.  In
particular 10 messages from a fresh peer give 10 `getheaders` and exactly
one 20-point event, on the 10th. -/
theorem unconnectingHeaders_run (s : UnconnectingState) (msgs : List (Int × Nat))
    (htime : ∀ m ∈ msgs, HEADERS_RESPONSE_TIME < m.1)
    (hcount : ∀ m ∈ msgs, 1 ≤ m.2 ∧ m.2 ≤ MAX_BLOCKS_TO_ANNOUNCE) :
    (processUnconnectingRun s msgs).1.nUnconnectingHeaders
        = s.nUnconnectingHeaders + msgs.length ∧
      (processUnconnectingRun s msgs).2.1 = msgs.length ∧
      (processUnconnectingRun s msgs).2.2
        = 20 * ((s.nUnconnectingHeaders + msgs.length) / MAX_UNCONNECTING_HEADERS
            - s.nUnconnectingHeaders / MAX_UNCONNECTING_HEADERS) := by
  induction msgs generalizing s with
  | nil =>
    refine ⟨rfl, rfl, ?_⟩
    simp [processUnconnectingRun]
  | cons m rest ih =>
    obtain ⟨t, count⟩ := m
    have ht : HEADERS_RESPONSE_TIME < t := htime (t, count) (List.mem_cons_self _ _)
    have hc : count ≤ MAX_BLOCKS_TO_ANNOUNCE :=
      (hcount (t, count) (List.mem_cons_self _ _)).2
    have hstep : processUnconnectingHeadersMsg t count s
        = (⟨s.nUnconnectingHeaders + 1, t⟩, true,
            if (s.nUnconnectingHeaders + 1) % MAX_UNCONNECTING_HEADERS = 0
              then 20 else 0) := by
      rw [processUnconnectingHeadersMsg, if_pos hc]
      rw [handleFewUnconnectingHeaders]
      have hsend : maybeSendGetHeaders t 0 = (true, t) := by
        rw [maybeSendGetHeaders, if_pos (by omega)]
      simp only [hsend]
    have ihtail := ih ⟨s.nUnconnectingHeaders + 1, t⟩
      (fun m hm => htime m (List.mem_cons_of_mem _ hm))
      (fun m hm => hcount m (List.mem_cons_of_mem _ hm))
    rw [processUnconnectingRun, hstep]
    simp only [List.length_cons] at ihtail ⊢
    refine ⟨?_, ?_, ?_⟩
    · rw [ihtail.1]
      omega
    · rw [ihtail.2.1]
      simp only [if_true]
      omega
    · rw [ihtail.2.2]
      have hdiv : (s.nUnconnectingHeaders + 1) / MAX_UNCONNECTING_HEADERS
          = s.nUnconnectingHeaders / MAX_UNCONNECTING_HEADERS
            + (if (s.nUnconnectingHeaders + 1) % MAX_UNCONNECTING_HEADERS = 0
                then 1 else 0) := by
        rw [Nat.succ_div]
        have hiff : MAX_UNCONNECTING_HEADERS ∣ s.nUnconnectingHeaders + 1
            ↔ (s.nUnconnectingHeaders + 1) % MAX_UNCONNECTING_HEADERS = 0 :=
          Nat.dvd_iff_mod_eq_zero
        simp only [hiff]
      have hmono : s.nUnconnectingHeaders / MAX_UNCONNECTING_HEADERS
          ≤ (s.nUnconnectingHeaders + 1) / MAX_UNCONNECTING_HEADERS :=
        Nat.div_le_div_right (Nat.le_succ _)
      have hmono2 : (s.nUnconnectingHeaders + 1) / MAX_UNCONNECTING_HEADERS
          ≤ (s.nUnconnectingHeaders + 1 + rest.length) / MAX_UNCONNECTING_HEADERS :=
        Nat.div_le_div_right (by omega)
      by_cases hz : (s.nUnconnectingHeaders + 1) % MAX_UNCONNECTING_HEADERS = 0
      · rw [if_pos hz]
        rw [if_pos hz] at hdiv
        have harr : s.nUnconnectingHeaders + 1 + rest.length
            = s.nUnconnectingHeaders + (rest.length + 1) := by omega
        rw [harr] at hmono2 ⊢
        omega
      · rw [if_neg hz]
        rw [if_neg hz] at hdiv
        have harr : s.nUnconnectingHeaders + 1 + rest.length
            = s.nUnconnectingHeaders + (rest.length + 1) := by omega
        rw [harr] at hmono2 ⊢
        omega

/-- C3 (witness): 10 unconnecting headers messages (each of one header,
each more than 2 minutes after the epoch) from a fresh peer: the counter
reaches 10, 10 `getheaders` go out, and exactly 20 points (one event)
are assigned. -/
theorem unconnectingHeaders_run_witness :
    (processUnconnectingRun ⟨0, 0⟩
        (List.replicate 10 ((121000000 : Int), 1))).2.1 = 10 ∧
      (processUnconnectingRun ⟨0, 0⟩
        (List.replicate 10 ((121000000 : Int), 1))).2.2 = 20 := by
  have h := unconnectingHeaders_run ⟨0, 0⟩
    (List.replicate 10 ((121000000 : Int), 1))
    (by
      intro m hm
      rw [List.eq_of_mem_replicate hm]
      decide)
    (by
      intro m hm
      rw [List.eq_of_mem_replicate hm]
      decide)
  refine ⟨?_, ?_⟩
  · rw [h.2.1]
    rfl
  · rw [h.2.2]
    rfl

/-! ## Block request tracking (net_processing.cpp)

`mapBlocksInFlight` maps a block hash to the requesting peer and an
iterator into that peer's `CNodeState::vBlocksInFlight`
(net_processing.cpp:1144); `PeerManagerImpl::RemoveBlockRequest`
(net_processing.cpp:1109-1134) and `PeerManagerImpl::BlockRequested`
(net_processing.cpp:1136-1168) maintain it.  The map is modelled as an
association list keyed by hash (a `std::map` holds at most one entry per
key); the download-timing fields `m_downloading_since`/`m_stalling_since`
are wall-clock statistics that do not feed back into this logic and are
not modelled. -/

abbrev NodeId := Nat

abbrev BlockHash := Nat

/-- `QueuedBlock` (net_processing.cpp): the requested block and whether a
`PartiallyDownloadedBlock` was allocated (i.e. `pit` was passed). -/
structure QueuedBlock where
  hash : BlockHash
  hasPartial : Bool
deriving DecidableEq, Repr

/-- The block-download part of `CNodeState`: `vBlocksInFlight` and
`nBlocksInFlight` (net_processing.cpp:433-437). -/
structure NodeDLState where
  vBlocksInFlight : List QueuedBlock
  nBlocksInFlight : Int
deriving DecidableEq, Repr

/-- The shared state of the block-request tracker: `mapBlocksInFlight`,
the per-node `CNodeState`s, and `m_peers_downloading_from`. -/
structure BlockDLState where
  mapBlocksInFlight : List (BlockHash × NodeId)
  nodeStates : NodeId → NodeDLState
  peersDownloadingFrom : Int

/-- `mapBlocksInFlight.find(hash)` on the association-list model. -/
def lookupInFlight : List (BlockHash × NodeId) → BlockHash → Option NodeId
  | [], _ => none
  | (h, n) :: rest, hash => if h = hash then some n else lookupInFlight rest hash

/-- `mapBlocksInFlight.erase(it)`: remove the (unique) entry for `hash`. -/
def eraseInFlight : List (BlockHash × NodeId) → BlockHash → List (BlockHash × NodeId)
  | [], _ => []
  | (h, n) :: rest, hash =>
    if h = hash then rest else (h, n) :: eraseInFlight rest hash

/-- `state->vBlocksInFlight.erase(list_it)`: remove the queued entry for
`hash`. -/
def eraseQueued : List QueuedBlock → BlockHash → List QueuedBlock
  | [], _ => []
  | qb :: rest, hash => if qb.hash = hash then rest else qb :: eraseQueued rest hash

/-- `PeerManagerImpl::RemoveBlockRequest` (net_processing.cpp:1109-1134):
if `hash` is not in flight, do nothing; otherwise erase its queue entry,
decrement the owner's `nBlocksInFlight` (decrementing
`m_peers_downloading_from` when it reaches zero) and drop the map entry. -/
def removeBlockRequest (s : BlockDLState) (hash : BlockHash) : BlockDLState :=
  match lookupInFlight s.mapBlocksInFlight hash with
  | none => s
  | some nodeid =>
    let st := s.nodeStates nodeid
    let st' : NodeDLState := ⟨eraseQueued st.vBlocksInFlight hash, st.nBlocksInFlight - 1⟩
    { mapBlocksInFlight := eraseInFlight s.mapBlocksInFlight hash,
      nodeStates := fun n => if n = nodeid then st' else s.nodeStates n,
      peersDownloadingFrom :=
        if st.nBlocksInFlight - 1 = 0 then s.peersDownloadingFrom - 1
        else s.peersDownloadingFrom }

/-- `PeerManagerImpl::BlockRequested` (net_processing.cpp:1136-1168):
short-circuit (returning false) when `hash` is already in flight from
`nodeid`; otherwise `RemoveBlockRequest(hash)`, append to the node's
`vBlocksInFlight`, bump `nBlocksInFlight` (and
`m_peers_downloading_from` when a batch starts) and record the map
entry.  `pit` records whether the caller asked for a
`PartiallyDownloadedBlock` slot. -/
def blockRequested (s : BlockDLState) (nodeid : NodeId) (hash : BlockHash)
    (pit : Bool) : Bool × BlockDLState :=
  if lookupInFlight s.mapBlocksInFlight hash = some nodeid then (false, s)
  else
    let s1 := removeBlockRequest s hash
    let st := s1.nodeStates nodeid
    let st' : NodeDLState :=
      ⟨st.vBlocksInFlight ++ [⟨hash, pit⟩], st.nBlocksInFlight + 1⟩
    (true,
      { mapBlocksInFlight := s1.mapBlocksInFlight ++ [(hash, nodeid)],
        nodeStates := fun n => if n = nodeid then st' else s1.nodeStates n,
        peersDownloadingFrom :=
          if st.nBlocksInFlight + 1 = 1 then s1.peersDownloadingFrom + 1
          else s1.peersDownloadingFrom })

theorem lookupInFlight_eq_none_iff (l : List (BlockHash × NodeId)) (h : BlockHash) :
    lookupInFlight l h = none ↔ h ∉ l.map Prod.fst := by
  induction l with
  | nil => simp [lookupInFlight]
  | cons p rest ih =>
    obtain ⟨k, n⟩ := p
    rw [lookupInFlight]
    by_cases hk : k = h
    · subst hk
      simp
    · rw [if_neg hk]
      simp [ih, Ne.symm hk]

theorem lookupInFlight_append_of_none (l l2 : List (BlockHash × NodeId))
    (h : BlockHash) (hnone : lookupInFlight l h = none) :
    lookupInFlight (l ++ l2) h = lookupInFlight l2 h := by
  induction l with
  | nil => rfl
  | cons p rest ih =>
    obtain ⟨k, n⟩ := p
    rw [List.cons_append]
    simp only [lookupInFlight] at hnone ⊢
    by_cases hk : k = h
    · rw [if_pos hk] at hnone
      cases hnone
    · rw [if_neg hk] at hnone ⊢
      exact ih hnone

theorem keys_eraseInFlight_subset (l : List (BlockHash × NodeId)) (h : BlockHash) :
    ∀ k ∈ (eraseInFlight l h).map Prod.fst, k ∈ l.map Prod.fst := by
  induction l with
  | nil => intro k hk; cases hk
  | cons p rest ih =>
    obtain ⟨k0, n0⟩ := p
    rw [eraseInFlight]
    by_cases hk : k0 = h
    · rw [if_pos hk]
      intro k hk'
      exact List.mem_cons_of_mem _ hk'
    · rw [if_neg hk]
      intro k hk'
      rw [List.map_cons, List.mem_cons] at hk' ⊢
      rcases hk' with rfl | hk'
      · left; rfl
      · right; exact ih k hk'

theorem keys_eraseInFlight_nodup (l : List (BlockHash × NodeId)) (h : BlockHash)
    (hnd : (l.map Prod.fst).Nodup) :
    ((eraseInFlight l h).map Prod.fst).Nodup ∧
      h ∉ (eraseInFlight l h).map Prod.fst := by
  induction l with
  | nil => exact ⟨List.nodup_nil, by simp [eraseInFlight]⟩
  | cons p rest ih =>
    obtain ⟨k0, n0⟩ := p
    rw [List.map_cons, List.nodup_cons] at hnd
    rw [eraseInFlight]
    by_cases hk : k0 = h
    · subst hk
      rw [if_pos rfl]
      exact ⟨hnd.2, hnd.1⟩
    · rw [if_neg hk]
      have := ih hnd.2
      refine ⟨?_, ?_⟩
      · rw [List.map_cons, List.nodup_cons]
        exact ⟨fun hmem => hnd.1 (keys_eraseInFlight_subset rest h k0 hmem), this.1⟩
      · rw [List.map_cons, List.mem_cons]
        rintro (rfl | hmem)
        · exact hk rfl
        · exact this.2 hmem

/-- C1: behavior of `BlockRequested` on a state whose inflight map has
duplicate-free keys (the `std::map` invariant).  (1) A repeated request
for a hash already in flight from the same peer is a no-op returning
false.  (2) A first request for a hash not in flight returns true,
increments that peer's `nBlocksInFlight` exactly once, records the peer
as owner, and leaves every other peer's state unchanged.  (3) A request
from a different peer `q ≠ p` while `p` owns the hash first removes `p`'s
entry (decrementing `p`'s count) and transfers ownership to `q`.  (4) The
inflight map's keys stay duplicate-free, so each block hash is in flight
from at most one peer in every reachable state. -/
theorem blockRequested_spec (s : BlockDLState) (p q : NodeId) (h : BlockHash)
    (pit : Bool) (hinv : (s.mapBlocksInFlight.map Prod.fst).Nodup) :
    (lookupInFlight s.mapBlocksInFlight h = some p →
        blockRequested s p h pit = (false, s)) ∧
      (lookupInFlight s.mapBlocksInFlight h = none →
        (blockRequested s p h pit).1 = true ∧
          ((blockRequested s p h pit).2.nodeStates p).nBlocksInFlight
            = (s.nodeStates p).nBlocksInFlight + 1 ∧
          lookupInFlight (blockRequested s p h pit).2.mapBlocksInFlight h = some p ∧
          (∀ r, r ≠ p → (blockRequested s p h pit).2.nodeStates r = s.nodeStates r)) ∧
      (lookupInFlight s.mapBlocksInFlight h = some p → q ≠ p →
        (blockRequested s q h pit).1 = true ∧
          lookupInFlight (blockRequested s q h pit).2.mapBlocksInFlight h = some q ∧
          ((blockRequested s q h pit).2.nodeStates p).nBlocksInFlight
            = (s.nodeStates p).nBlocksInFlight - 1 ∧
          ((blockRequested s q h pit).2.nodeStates q).nBlocksInFlight
            = (s.nodeStates q).nBlocksInFlight + 1) ∧
      ((blockRequested s p h pit).2.mapBlocksInFlight.map Prod.fst).Nodup := by
  refine ⟨?_, ?_, ?_, ?_⟩
  · intro hown
    rw [blockRequested, if_pos hown]
  · intro hnone
    have hne : ¬ lookupInFlight s.mapBlocksInFlight h = some p := by
      rw [hnone]; intro hc; cases hc
    have hrm : removeBlockRequest s h = s := by
      rw [removeBlockRequest, hnone]
    rw [blockRequested, if_neg hne, hrm]
    refine ⟨rfl, by simp, ?_, ?_⟩
    · rw [lookupInFlight_append_of_none _ _ _ hnone]
      simp [lookupInFlight]
    · intro r hr
      simp [hr]
  · intro hown hqp
    have hne : ¬ lookupInFlight s.mapBlocksInFlight h = some q := by
      rw [hown]
      intro hc
      exact hqp (Option.some_injective _ hc).symm
    have herase := keys_eraseInFlight_nodup s.mapBlocksInFlight h hinv
    have herase_none :
        lookupInFlight (eraseInFlight s.mapBlocksInFlight h) h = none :=
      (lookupInFlight_eq_none_iff _ _).mpr herase.2
    rw [blockRequested, if_neg hne, removeBlockRequest, hown]
    refine ⟨rfl, ?_, ?_, ?_⟩
    · rw [lookupInFlight_append_of_none _ _ _ herase_none]
      simp [lookupInFlight]
    · simp [hqp, Ne.symm hqp]
    · simp [hqp, Ne.symm hqp]
  · rw [blockRequested]
    by_cases hc : lookupInFlight s.mapBlocksInFlight h = some p
    · rw [if_pos hc]
      exact hinv
    · rw [if_neg hc, removeBlockRequest]
      cases hlk : lookupInFlight s.mapBlocksInFlight h with
      | none =>
        have hmem := (lookupInFlight_eq_none_iff _ _).mp hlk
        simp only [List.map_append, List.map_cons, List.map_nil]
        rw [List.nodup_append]
        refine ⟨hinv, List.nodup_singleton h, ?_⟩
        intro a ha hb
        rw [List.mem_singleton] at hb
        subst hb
        exact hmem ha
      | some owner =>
        have herase := keys_eraseInFlight_nodup s.mapBlocksInFlight h hinv
        simp only [List.map_append, List.map_cons, List.map_nil]
        rw [List.nodup_append]
        refine ⟨herase.1, List.nodup_singleton h, ?_⟩
        intro a ha hb
        rw [List.mem_singleton] at hb
        subst hb
        exact herase.2 ha

/-- C1 (witness): on a concrete state where hash 5 is in flight from peer
1, a repeated `BlockRequested(1, 5)` is a no-op returning false, and a
request from peer 2 moves ownership and adjusts both inflight counts. -/
theorem blockRequested_spec_witness :
    (blockRequested
        ⟨[(5, 1)], fun _ => ⟨[⟨5, false⟩], 1⟩, 1⟩ 1 5 false
      = (false, ⟨[(5, 1)], fun _ => ⟨[⟨5, false⟩], 1⟩, 1⟩)) ∧
      lookupInFlight
        (blockRequested ⟨[(5, 1)], fun _ => ⟨[⟨5, false⟩], 1⟩, 1⟩ 2 5 false).2.mapBlocksInFlight
        5 = some 2 := by
  constructor
  · exact (blockRequested_spec ⟨[(5, 1)], fun _ => ⟨[⟨5, false⟩], 1⟩, 1⟩ 1 2 5 false
      (by decide)).1 rfl
  · exact ((blockRequested_spec ⟨[(5, 1)], fun _ => ⟨[⟨5, false⟩], 1⟩, 1⟩ 1 2 5 false
      (by decide)).2.2.1 rfl (by decide)).2.1

/-! ## inv message handling (net_processing.cpp)

The INV handler (net_processing.cpp:3537-3627) checks `MAX_INV_SZ`, then
iterates the entries: entries that do not match the peer's wtxid-relay
setting are skipped with `continue` (net_processing.cpp:3556-3563); block
entries update availability and the `best_block` candidate; transaction
entries disconnect the peer when `RejectIncomingTxs(pfrom)` holds
(net_processing.cpp:3580-3584), and otherwise may be fed to the tx
request tracker.

Modelled from the spec: `CInv` and its type predicates (protocol.h, not
among the studied sources): `IsMsgTx` means MSG_TX, `IsMsgWtx` means
MSG_WTX, `IsMsgBlk` means MSG_BLOCK, and `IsGenTxMsg` means MSG_TX,
MSG_WTX or MSG_WITNESS_TX. -/

/-- `MAX_INV_SZ`. -/
def MAX_INV_SZ : Nat := 50000

inductive InvType
  | msgTx
  | msgBlock
  | msgWtx
  | msgWitnessTx
  | msgWitnessBlock
  | msgFilteredBlock
  | msgCmpctBlock
deriving DecidableEq, Repr

structure CInv where
  invType : InvType
  hash : Nat
deriving DecidableEq, Repr

def CInv.isMsgTx : CInv → Bool
  | ⟨InvType.msgTx, _⟩ => true
  | _ => false

def CInv.isMsgWtx : CInv → Bool
  | ⟨InvType.msgWtx, _⟩ => true
  | _ => false

def CInv.isMsgBlk : CInv → Bool
  | ⟨InvType.msgBlock, _⟩ => true
  | _ => false

def CInv.isGenTxMsg : CInv → Bool
  | ⟨InvType.msgTx, _⟩ => true
  | ⟨InvType.msgWtx, _⟩ => true
  | ⟨InvType.msgWitnessTx, _⟩ => true
  | _ => false

/-- The collaborator facts the INV handler consults:
`RejectIncomingTxs(pfrom)` (net_processing.cpp:5200-5207),
`AlreadyHaveBlock`, `AlreadyHaveTx`, `fImporting || fReindex`,
`IsBlockRequested`, and `IsInitialBlockDownload`. -/
structure InvEnv where
  rejectTxInvs : Bool
  alreadyHaveBlock : Nat → Bool
  alreadyHaveTx : Nat → Bool
  importingOrReindex : Bool
  isBlockRequested : Nat → Bool
  inIBD : Bool

/-- The observable effects of one INV message: whether the peer got
disconnected, the tx announcements handed to the request tracker, the
hashes added to the known-tx filter, and the final `best_block`. -/
structure InvOutcome where
  disconnect : Bool
  announcements : List CInv
  knownTxAdded : List Nat
  bestBlock : Option Nat
deriving Repr

/-- An inv entry that the wtxid-relay check skips with `continue`
(net_processing.cpp:3559-3563): MSG_TX from a wtxid-relay peer, or
MSG_WTX from a non-wtxid-relay peer. -/
def skippedEntry (wtxidRelay : Bool) (inv : CInv) : Bool :=
  (wtxidRelay && inv.isMsgTx) || (!wtxidRelay && inv.isMsgWtx)

/-- The entry loop of the INV handler (net_processing.cpp:3553-3596);
processing stops on the early `return` that disconnects the peer. -/
def processInvEntries (env : InvEnv) (wtxidRelay : Bool) :
    List CInv → InvOutcome → InvOutcome
  | [], st => st
  | inv :: rest, st =>
    if skippedEntry wtxidRelay inv then processInvEntries env wtxidRelay rest st
    else if inv.isMsgBlk then
      let st' :=
        if !env.alreadyHaveBlock inv.hash && !env.importingOrReindex
            && !env.isBlockRequested inv.hash
        then { st with bestBlock := some inv.hash }
        else st
      processInvEntries env wtxidRelay rest st'
    else if inv.isGenTxMsg then
      if env.rejectTxInvs then { st with disconnect := true }
      else
        let st' := { st with knownTxAdded := st.knownTxAdded ++ [inv.hash] }
        let st'' :=
          if !env.alreadyHaveTx inv.hash && !env.inIBD
          then { st' with announcements := st'.announcements ++ [inv] }
          else st'
        processInvEntries env wtxidRelay rest st''
    else processInvEntries env wtxidRelay rest st

/-- The INV handler (net_processing.cpp:3537-3627): an oversized message
is 20 misbehavior points and is not processed; otherwise the entries are
iterated.  Returns the misbehavior points and the outcome. -/
def processInvMessage (env : InvEnv) (wtxidRelay : Bool) (invs : List CInv) :
    Nat × InvOutcome :=
  if invs.length > MAX_INV_SZ then (20, ⟨false, [], [], none⟩)
  else (0, processInvEntries env wtxidRelay invs ⟨false, [], [], none⟩)

theorem processInvEntries_disconnect_iff (env : InvEnv) (wtxidRelay : Bool)
    (invs : List CInv) (st : InvOutcome) (hst : st.disconnect = false) :
    ((processInvEntries env wtxidRelay invs st).disconnect = true ↔
      env.rejectTxInvs = true ∧
        ∃ inv ∈ invs, inv.isGenTxMsg = true ∧ skippedEntry wtxidRelay inv = false) := by
  induction invs generalizing st with
  | nil =>
    simp only [processInvEntries, hst]
    simp
  | cons inv rest ih =>
    rw [processInvEntries]
    by_cases hsk : skippedEntry wtxidRelay inv = true
    · rw [if_pos hsk, ih st hst]
      constructor
      · rintro ⟨hr, x, hx, hgen, hns⟩
        exact ⟨hr, x, List.mem_cons_of_mem _ hx, hgen, hns⟩
      · rintro ⟨hr, x, hx, hgen, hns⟩
        rcases List.mem_cons.mp hx with rfl | hx
        · rw [hsk] at hns
          cases hns
        · exact ⟨hr, x, hx, hgen, hns⟩
    · rw [if_neg hsk]
      have hskf : skippedEntry wtxidRelay inv = false := by
        cases hv : skippedEntry wtxidRelay inv
        · rfl
        · exact absurd hv hsk
      by_cases hblk : inv.isMsgBlk = true
      · rw [if_pos hblk]
        have hgenf : inv.isGenTxMsg = false := by
          obtain ⟨t, hhash⟩ := inv
          cases t <;> first | rfl | (cases hblk)
        have hst' : (if !env.alreadyHaveBlock inv.hash && !env.importingOrReindex
              && !env.isBlockRequested inv.hash
            then { st with bestBlock := some inv.hash } else st).disconnect = false := by
          by_cases hcnd : (!env.alreadyHaveBlock inv.hash && !env.importingOrReindex
              && !env.isBlockRequested inv.hash) = true
          · rw [if_pos hcnd]
            exact hst
          · rw [if_neg hcnd]
            exact hst
        rw [ih _ hst']
        constructor
        · rintro ⟨hr, x, hx, hgen, hns⟩
          exact ⟨hr, x, List.mem_cons_of_mem _ hx, hgen, hns⟩
        · rintro ⟨hr, x, hx, hgen, hns⟩
          rcases List.mem_cons.mp hx with rfl | hx
          · rw [hgenf] at hgen
            cases hgen
          · exact ⟨hr, x, hx, hgen, hns⟩
      · rw [if_neg hblk]
        by_cases hgen : inv.isGenTxMsg = true
        · rw [if_pos hgen]
          by_cases hrej : env.rejectTxInvs = true
          · rw [if_pos hrej]
            simp only [hrej, true_and]
            constructor
            · intro _
              exact ⟨inv, List.mem_cons_self _ _, hgen, hskf⟩
            · intro _
              trivial
          · rw [if_neg hrej]
            have hrejf : env.rejectTxInvs = false := by
              cases hv : env.rejectTxInvs
              · rfl
              · exact absurd hv hrej
            rw [ih]
            · simp [hrejf]
            · by_cases hcnd : (!env.alreadyHaveTx inv.hash && !env.inIBD) = true
              · rw [if_pos hcnd]
                exact hst
              · rw [if_neg hcnd]
                exact hst
        · rw [if_neg hgen]
          have hgenf : inv.isGenTxMsg = false := by
            cases hv : inv.isGenTxMsg
            · rfl
            · exact absurd hv hgen
          rw [ih st hst]
          constructor
          · rintro ⟨hr, x, hx, hg, hns⟩
            exact ⟨hr, x, List.mem_cons_of_mem _ hx, hg, hns⟩
          · rintro ⟨hr, x, hx, hg, hns⟩
            rcases List.mem_cons.mp hx with rfl | hx
            · rw [hgenf] at hg
              cases hg
            · exact ⟨hr, x, hx, hg, hns⟩

/-- C5 (counterexample): the claim "a wtxid-relay peer sending a MSG_TX
inv entry is disconnected" is false on the code: the entry is skipped
with `continue` (net_processing.cpp:3559-3560) and has no effect at all —
here a wtxid-relay peer that is allowed to send transactions
(`RejectIncomingTxs = false`) sends a single MSG_TX entry and is not
disconnected, and symmetrically a non-wtxid-relay peer sending MSG_WTX is
not disconnected either. -/
theorem invMismatch_cex :
    (processInvMessage
        ⟨false, fun _ => false, fun _ => false, false, fun _ => false, false⟩
        true [⟨InvType.msgTx, 5⟩]).2.disconnect = false ∧
      (processInvMessage
        ⟨false, fun _ => false, fun _ => false, false, fun _ => false, false⟩
        true [⟨InvType.msgTx, 5⟩]).2.announcements = [] ∧
      (processInvMessage
        ⟨false, fun _ => false, fun _ => false, false, fun _ => false, false⟩
        false [⟨InvType.msgWtx, 5⟩]).2.disconnect = false := by
  refine ⟨rfl, rfl, rfl⟩

/-- C5 (amended): inv entries that do not match the peer's wtxid-relay
setting (MSG_TX from a wtxid-relay peer, MSG_WTX from a non-wtxid-relay
peer) are silently ignored, with no effect on the outcome; for a message
within `MAX_INV_SZ`, the peer is disconnected if and only if it sends
some non-ignored transaction-type entry while transaction invs from it
are forbidden entirely (`RejectIncomingTxs`: block-relay-only connection,
or `-blocksonly` mode without the relay permission). -/
theorem invHandler_mismatch_ignored (env : InvEnv) (wtxidRelay : Bool)
    (invs : List CInv) (hlen : invs.length ≤ MAX_INV_SZ) :
    (∀ inv rest st, skippedEntry wtxidRelay inv = true →
        processInvEntries env wtxidRelay (inv :: rest) st
          = processInvEntries env wtxidRelay rest st) ∧
      ((processInvMessage env wtxidRelay invs).2.disconnect = true ↔
        env.rejectTxInvs = true ∧
          ∃ inv ∈ invs, inv.isGenTxMsg = true ∧
            skippedEntry wtxidRelay inv = false) := by
  constructor
  · intro inv rest st hsk
    rw [processInvEntries, if_pos hsk]
  · rw [processInvMessage, if_neg (by omega)]
    exact processInvEntries_disconnect_iff env wtxidRelay invs ⟨false, [], [], none⟩ rfl

/-- C5 (witness): the amended characterization on concrete inputs: a
block-relay-only peer (`RejectIncomingTxs = true`) sending a matching
MSG_WTX entry is disconnected, and the skip rule erases a MSG_TX entry
for a wtxid-relay peer. -/
theorem invHandler_mismatch_ignored_witness :
    (processInvMessage
        ⟨true, fun _ => false, fun _ => false, false, fun _ => false, false⟩
        true [⟨InvType.msgWtx, 7⟩]).2.disconnect = true := by
  have h := invHandler_mismatch_ignored
    ⟨true, fun _ => false, fun _ => false, false, fun _ => false, false⟩
    true [⟨InvType.msgWtx, 7⟩] (by decide)
  exact h.2.mpr ⟨rfl, ⟨InvType.msgWtx, 7⟩, List.mem_cons_self _ _, rfl, rfl⟩

/-! ## getaddr handling (net_processing.cpp)

The GETADDR handler (net_processing.cpp:4432-4467) ignores the message on
non-inbound connections, answers only the first getaddr per connection
(`m_getaddr_recvd`), clears `m_addrs_to_send` and refills it through
`PushAddress` (net_processing.cpp:1048-1061) from the addresses returned
by the connection manager.

Modelled from the spec: `CConnman::GetAddresses`/`AddrMan::GetAddr`
(net.cpp/addrman.cpp, not among the studied sources) return up to
`min(max_addresses, max_pct% of the addrman table)` addresses; the
returned vector is a parameter here and that bound is a hypothesis. -/

/-- `MAX_ADDR_TO_SEND{1000}` (net_processing.cpp:175). -/
def MAX_ADDR_TO_SEND : Nat := 1000

/-- `MAX_PCT_ADDR_TO_SEND = 23` (net_processing.cpp:173). -/
def MAX_PCT_ADDR_TO_SEND : Nat := 23

/-- The per-peer state touched by the GETADDR handler:
`Peer::m_getaddr_recvd` (net_processing.cpp:360) and
`Peer::m_addrs_to_send` (net_processing.cpp:322). -/
structure GetaddrPeer where
  getaddrRecvd : Bool
  addrsToSend : List Nat
deriving DecidableEq, Repr

/-- The per-address predicates `PushAddress` consults: `addr.IsValid()`,
`m_addr_known->contains(addr.GetKey())`, `IsAddrCompatible(peer, addr)`. -/
structure PushAddrEnv where
  isValid : Nat → Bool
  addrKnown : Nat → Bool
  isAddrCompatible : Nat → Bool

/-- `PeerManagerImpl::PushAddress` (net_processing.cpp:1048-1061): a
valid, unknown, compatible address is appended to `m_addrs_to_send`,
replacing the entry at `insecure_rand.randrange(size)` (given here as
`rand % size`) once the queue holds `MAX_ADDR_TO_SEND`. -/
def pushAddress (env : PushAddrEnv) (rand : Nat) (queue : List Nat)
    (addr : Nat) : List Nat :=
  if env.isValid addr && !env.addrKnown addr && env.isAddrCompatible addr then
    if queue.length ≥ MAX_ADDR_TO_SEND then queue.set (rand % queue.length) addr
    else queue ++ [addr]
  else queue

/-- The `PushAddress` loop of the GETADDR handler
(net_processing.cpp:4462-4465); `rands k` is the `FastRandomContext`
output for the k-th call. -/
def pushAddresses (env : PushAddrEnv) (rands : Nat → Nat) (k : Nat)
    (queue : List Nat) : List Nat → List Nat
  | [] => queue
  | a :: rest => pushAddresses env rands (k + 1) (pushAddress env (rands k) queue a) rest

/-- The GETADDR handler (net_processing.cpp:4432-4467): `vAddr` is the
vector returned by `m_connman.GetAddresses(...)`. -/
def processGetaddr (env : PushAddrEnv) (rands : Nat → Nat) (inbound : Bool)
    (vAddr : List Nat) (st : GetaddrPeer) : GetaddrPeer :=
  if !inbound then st
  else if st.getaddrRecvd then st
  else
    { getaddrRecvd := true, addrsToSend := pushAddresses env rands 0 [] vAddr }

theorem pushAddress_length (env : PushAddrEnv) (rand : Nat) (queue : List Nat)
    (addr : Nat) : (pushAddress env rand queue addr).length ≤ queue.length + 1 := by
  rw [pushAddress]
  by_cases h1 : (env.isValid addr && !env.addrKnown addr
      && env.isAddrCompatible addr) = true
  · rw [if_pos h1]
    by_cases h2 : queue.length ≥ MAX_ADDR_TO_SEND
    · rw [if_pos h2, List.length_set]
      omega
    · rw [if_neg h2, List.length_append]
      simp
  · rw [if_neg h1]
    omega

theorem pushAddress_mem (env : PushAddrEnv) (rand : Nat) (queue : List Nat)
    (addr : Nat) :
    ∀ x ∈ pushAddress env rand queue addr, x ∈ queue ∨ x = addr := by
  intro x hx
  rw [pushAddress] at hx
  by_cases h1 : (env.isValid addr && !env.addrKnown addr
      && env.isAddrCompatible addr) = true
  · rw [if_pos h1] at hx
    by_cases h2 : queue.length ≥ MAX_ADDR_TO_SEND
    · rw [if_pos h2] at hx
      rcases List.mem_or_eq_of_mem_set hx with hm | rfl
      · exact Or.inl hm
      · exact Or.inr rfl
    · rw [if_neg h2] at hx
      rcases List.mem_append.mp hx with hm | hm
      · exact Or.inl hm
      · exact Or.inr (List.mem_singleton.mp hm)
  · rw [if_neg h1] at hx
    exact Or.inl hx

theorem pushAddresses_length (env : PushAddrEnv) (rands : Nat → Nat)
    (vAddr : List Nat) : ∀ k queue,
    (pushAddresses env rands k queue vAddr).length ≤ queue.length + vAddr.length := by
  induction vAddr with
  | nil => intro k queue; simp [pushAddresses]
  | cons a rest ih =>
    intro k queue
    rw [pushAddresses]
    have h1 := ih (k + 1) (pushAddress env (rands k) queue a)
    have h2 := pushAddress_length env (rands k) queue a
    simp only [List.length_cons]
    omega

theorem pushAddresses_mem (env : PushAddrEnv) (rands : Nat → Nat)
    (vAddr : List Nat) : ∀ k queue,
    ∀ x ∈ pushAddresses env rands k queue vAddr, x ∈ queue ∨ x ∈ vAddr := by
  induction vAddr with
  | nil => intro k queue x hx; exact Or.inl hx
  | cons a rest ih =>
    intro k queue x hx
    rw [pushAddresses] at hx
    rcases ih (k + 1) (pushAddress env (rands k) queue a) x hx with hm | hm
    · rcases pushAddress_mem env (rands k) queue a x hm with hq | rfl
      · exact Or.inl hq
      · exact Or.inr (List.mem_cons_self _ _)
    · exact Or.inr (List.mem_cons_of_mem _ hm)

/-- C7: the GETADDR handler ignores the message (no state change) on a
non-inbound connection; on an inbound connection only the first getaddr
is answered (`m_getaddr_recvd` already set makes it a no-op); the answer
clears the pending queue and refills it with at most `vAddr.length`
addresses drawn from `vAddr`, the `GetAddresses` result, which — per the
addrman contract — holds at most `min(MAX_ADDR_TO_SEND, 23% of addrman)`
addresses, so the refilled queue respects both bounds. -/
theorem processGetaddr_spec (env : PushAddrEnv) (rands : Nat → Nat)
    (vAddr : List Nat) (st : GetaddrPeer) (addrmanSize : Nat)
    (hget : vAddr.length
      ≤ min MAX_ADDR_TO_SEND (addrmanSize * MAX_PCT_ADDR_TO_SEND / 100)) :
    (processGetaddr env rands false vAddr st = st) ∧
      (st.getaddrRecvd = true → processGetaddr env rands true vAddr st = st) ∧
      (st.getaddrRecvd = false →
        (processGetaddr env rands true vAddr st).getaddrRecvd = true ∧
          (∀ x ∈ (processGetaddr env rands true vAddr st).addrsToSend, x ∈ vAddr) ∧
          (processGetaddr env rands true vAddr st).addrsToSend.length
              ≤ MAX_ADDR_TO_SEND ∧
          (processGetaddr env rands true vAddr st).addrsToSend.length
              ≤ addrmanSize * MAX_PCT_ADDR_TO_SEND / 100) := by
  refine ⟨rfl, ?_, ?_⟩
  · intro hr
    rw [processGetaddr]
    simp [hr]
  · intro hr
    rw [processGetaddr]
    simp only [Bool.not_true, Bool.false_eq_true, if_false, hr, if_true]
    have hlen := pushAddresses_length env rands vAddr 0 []
    have hmem := pushAddresses_mem env rands vAddr 0 []
    refine ⟨by trivial, ?_, ?_, ?_⟩
    · intro x hx
      rcases hmem x hx with hq | hv
      · cases hq
      · exact hv
    · simp only [List.length_nil, Nat.zero_add] at hlen
      omega
    · simp only [List.length_nil, Nat.zero_add] at hlen
      omega

/-- C7 (witness): concrete instantiation — an inbound first getaddr with
a two-address `GetAddresses` result from a 10-entry addrman fills the
queue from that result; the addrman bound `2 ≤ min 1000 (10*23/100)` is
checked concretely. -/
theorem processGetaddr_spec_witness :
    (processGetaddr ⟨fun _ => true, fun _ => false, fun _ => true⟩
        (fun _ => 0) true [4, 9] ⟨false, [3]⟩).getaddrRecvd = true :=
  ((processGetaddr_spec ⟨fun _ => true, fun _ => false, fun _ => true⟩
      (fun _ => 0) [4, 9] ⟨false, [3]⟩ 10 (by decide)).2.2 rfl).1

/-! ## Address processing rate limit (net_processing.cpp)

The ADDR/ADDRV2 handler (net_processing.cpp:3441-3535) drops oversized
messages (>`MAX_ADDR_TO_SEND` entries, 20 points), refills the per-peer
token bucket `m_addr_token_bucket` at `MAX_ADDR_RATE_PER_SECOND = 0.1`
tokens/second up to `MAX_ADDR_PROCESSING_TOKEN_BUCKET = 1000` (only while
the bucket is below the cap), then charges one token per address; for a
peer without the `Addr` permission an address arriving with less than one
token is dropped.  The bucket starts at `1.0`
(net_processing.cpp:363) and is credited `+= MAX_ADDR_TO_SEND` once, when
we send the peer a getaddr during version processing
(net_processing.cpp:3287-3291).  The C++ `double` bucket is modelled as
`ℚ`; times are in seconds.  Each address is summarized by whether it
passes the later storability/ban filters that gate `++num_proc`. -/

/-- `MAX_ADDR_RATE_PER_SECOND{0.1}` (net_processing.cpp:178). -/
def MAX_ADDR_RATE_PER_SECOND : ℚ := 1 / 10

/-- `MAX_ADDR_PROCESSING_TOKEN_BUCKET{MAX_ADDR_TO_SEND}` (net_processing.cpp:182). -/
def MAX_ADDR_PROCESSING_TOKEN_BUCKET : ℚ := 1000

/-- `Peer::m_addr_token_bucket` and `Peer::m_addr_token_timestamp`
(net_processing.cpp:363-365). -/
structure AddrPeerState where
  addrTokenBucket : ℚ
  addrTokenTimestamp : ℚ
deriving DecidableEq, Repr

/-- The fresh peer state: `m_addr_token_bucket{1.0}`, timestamp set at
construction time (net_processing.cpp:363-365). -/
def initAddrPeer (t0 : ℚ) : AddrPeerState := ⟨1, t0⟩

/-- `peer->m_addr_token_bucket += MAX_ADDR_TO_SEND` — the one-time credit
when a getaddr is sent during version processing
(net_processing.cpp:3291). -/
def creditGetaddrTokens (s : AddrPeerState) : AddrPeerState :=
  ⟨s.addrTokenBucket + 1000, s.addrTokenTimestamp⟩

/-- The peer state right after version processing: outbound peers with
address relay get the one-time getaddr credit. -/
def connectAddrState (t0 : ℚ) (credited : Bool) : AddrPeerState :=
  if credited then creditGetaddrTokens (initAddrPeer t0) else initAddrPeer t0

/-- The bucket refill step (net_processing.cpp:3470-3476): only while the
bucket is below the cap, add elapsed-seconds × rate, clamped to the cap. -/
def refillBucket (s : AddrPeerState) (now : ℚ) : ℚ :=
  if s.addrTokenBucket < MAX_ADDR_PROCESSING_TOKEN_BUCKET then
    min (s.addrTokenBucket
        + max (now - s.addrTokenTimestamp) 0 * MAX_ADDR_RATE_PER_SECOND)
      MAX_ADDR_PROCESSING_TOKEN_BUCKET
  else s.addrTokenBucket

/-- The per-address loop (net_processing.cpp:3483-3520) for counting
purposes: with less than one token, a rate-limited peer's address is
dropped (`num_rate_limit`), an exempt peer's address is processed without
charge; otherwise one token is charged.  `pass` records whether the
address survives the storability/ban filters in front of `++num_proc`.
Returns the final bucket and `num_proc`. -/
def addrLoop (rateLimited : Bool) : List Bool → ℚ → Nat → ℚ × Nat
  | [], bucket, nproc => (bucket, nproc)
  | pass :: rest, bucket, nproc =>
    if bucket < 1 then
      if rateLimited then addrLoop rateLimited rest bucket nproc
      else addrLoop rateLimited rest bucket (nproc + if pass then 1 else 0)
    else addrLoop rateLimited rest (bucket - 1) (nproc + if pass then 1 else 0)

/-- One ADDR/ADDRV2 message at time `now` (net_processing.cpp:3441-3535):
oversized messages are rejected before the bucket is touched
(net_processing.cpp:3459-3463); otherwise refill, then run the loop and
stamp the timestamp.  Returns the new state and `num_proc`. -/
def processAddrMessage (rateLimited : Bool) (now : ℚ) (passes : List Bool)
    (s : AddrPeerState) : AddrPeerState × Nat :=
  if passes.length > MAX_ADDR_TO_SEND then (s, 0)
  else
    (⟨(addrLoop rateLimited passes (refillBucket s now) 0).1, now⟩,
      (addrLoop rateLimited passes (refillBucket s now) 0).2)

/-- A run of ADDR/ADDRV2 messages, producing per-message
(receive time, processed count) pairs. -/
def runAddrMsgs (rateLimited : Bool) (s : AddrPeerState) :
    List (ℚ × List Bool) → List (ℚ × Nat)
  | [] => []
  | (t, ps) :: rest =>
    (t, (processAddrMessage rateLimited t ps s).2)
      :: runAddrMsgs rateLimited (processAddrMessage rateLimited t ps s).1 rest

/-- Total processed addresses over messages received inside the window
`[a, a + T]`. -/
def windowProcessed (a T : ℚ) (l : List (ℚ × Nat)) : Nat :=
  ((l.filter (fun e => a ≤ e.1 ∧ e.1 ≤ a + T)).map Prod.snd).sum

theorem addrLoop_accounting (passes : List Bool) :
    ∀ bucket : ℚ, ∀ nproc : Nat,
      ((addrLoop true passes bucket nproc).2 : ℚ)
          ≤ (nproc : ℚ) + bucket - (addrLoop true passes bucket nproc).1 ∧
        (addrLoop true passes bucket nproc).1 ≤ bucket ∧
        (0 ≤ bucket → 0 ≤ (addrLoop true passes bucket nproc).1) := by
  induction passes with
  | nil =>
    intro bucket nproc
    refine ⟨by simp [addrLoop], le_refl _, fun h => h⟩
  | cons pass rest ih =>
    intro bucket nproc
    rw [addrLoop]
    by_cases hb : bucket < 1
    · rw [if_pos hb, if_pos rfl]
      exact ih bucket nproc
    · rw [if_neg hb]
      have h := ih (bucket - 1) (nproc + if pass then 1 else 0)
      have hδ : ((if pass then 1 else 0 : Nat) : ℚ) ≤ 1 := by
        by_cases hp : pass
        · rw [if_pos hp]; norm_num
        · rw [if_neg hp]; norm_num
      refine ⟨?_, ?_, ?_⟩
      · have h1 := h.1
        have hcast : ((nproc + if pass then 1 else 0 : Nat) : ℚ)
            = (nproc : ℚ) + ((if pass then 1 else 0 : Nat) : ℚ) := by push_cast; ring
        rw [hcast] at h1
        linarith
      · have h2 := h.2.1
        linarith
      · intro h0
        exact h.2.2 (by linarith)

theorem refillBucket_le_max (s : AddrPeerState) (now : ℚ) :
    refillBucket s now ≤ max s.addrTokenBucket MAX_ADDR_PROCESSING_TOKEN_BUCKET := by
  rw [refillBucket]
  by_cases hc : s.addrTokenBucket < MAX_ADDR_PROCESSING_TOKEN_BUCKET
  · rw [if_pos hc]
    exact le_trans (min_le_right _ _) (le_max_right _ _)
  · rw [if_neg hc]
    exact le_max_left _ _

theorem refillBucket_le_add (s : AddrPeerState) (now : ℚ) :
    refillBucket s now
      ≤ s.addrTokenBucket
        + max (now - s.addrTokenTimestamp) 0 * MAX_ADDR_RATE_PER_SECOND := by
  rw [refillBucket]
  have hnn : 0 ≤ max (now - s.addrTokenTimestamp) 0 * MAX_ADDR_RATE_PER_SECOND := by
    apply mul_nonneg (le_max_right _ _)
    norm_num [MAX_ADDR_RATE_PER_SECOND]
  by_cases hc : s.addrTokenBucket < MAX_ADDR_PROCESSING_TOKEN_BUCKET
  · rw [if_pos hc]
    exact min_le_left _ _
  · rw [if_neg hc]
    linarith

theorem refillBucket_nonneg (s : AddrPeerState) (now : ℚ)
    (h0 : 0 ≤ s.addrTokenBucket) : 0 ≤ refillBucket s now := by
  rw [refillBucket]
  have hnn : 0 ≤ max (now - s.addrTokenTimestamp) 0 * MAX_ADDR_RATE_PER_SECOND := by
    apply mul_nonneg (le_max_right _ _)
    norm_num [MAX_ADDR_RATE_PER_SECOND]
  by_cases hc : s.addrTokenBucket < MAX_ADDR_PROCESSING_TOKEN_BUCKET
  · rw [if_pos hc]
    apply le_min (by linarith)
    norm_num [MAX_ADDR_PROCESSING_TOKEN_BUCKET]
  · rw [if_neg hc]
    exact h0

theorem windowProcessed_zero (a T : ℚ) (rateLimited : Bool)
    (msgs : List (ℚ × List Bool)) :
    ∀ s, (∀ m ∈ msgs, a + T < m.1) →
      windowProcessed a T (runAddrMsgs rateLimited s msgs) = 0 := by
  induction msgs with
  | nil => intro s _; rfl
  | cons m rest ih =>
    intro s hall
    obtain ⟨t, ps⟩ := m
    have ht : a + T < t := hall (t, ps) (List.mem_cons_self _ _)
    rw [runAddrMsgs, windowProcessed]
    rw [List.filter_cons_of_neg (by
      simp only [decide_eq_true_eq, not_and, not_le]
      intro _
      exact ht)]
    exact ih _ (fun m hm => hall m (List.mem_cons_of_mem _ hm))

/-- Inside-the-window accounting: once the timestamp is at or before the
window's end, the processed total is bounded by the current bucket plus
the refill the remaining window can provide. -/
theorem windowProcessed_phase2 (a T : ℚ) (msgs : List (ℚ × List Bool)) :
    ∀ s : AddrPeerState,
      List.Chain' (· ≤ ·) (s.addrTokenTimestamp :: msgs.map Prod.fst) →
      0 ≤ s.addrTokenBucket →
      s.addrTokenTimestamp ≤ a + T →
      (windowProcessed a T (runAddrMsgs true s msgs) : ℚ)
        ≤ s.addrTokenBucket
          + (a + T - s.addrTokenTimestamp) * MAX_ADDR_RATE_PER_SECOND := by
  induction msgs with
  | nil =>
    intro s _ h0 hts
    have hz : (windowProcessed a T (runAddrMsgs true s []) : ℚ) = 0 := by
      norm_num [runAddrMsgs, windowProcessed]
    rw [hz]
    have : 0 ≤ (a + T - s.addrTokenTimestamp) * MAX_ADDR_RATE_PER_SECOND := by
      apply mul_nonneg (by linarith)
      norm_num [MAX_ADDR_RATE_PER_SECOND]
    linarith
  | cons m rest ih =>
    intro s hchain h0 hts
    obtain ⟨t, ps⟩ := m
    simp only [List.map_cons] at hchain
    have hst : s.addrTokenTimestamp ≤ t := (List.chain'_cons.mp hchain).1
    have hchain2 : List.Chain' (· ≤ ·) (t :: rest.map Prod.fst) :=
      (List.chain'_cons.mp hchain).2
    have hchainS : List.Chain' (· ≤ ·)
        (s.addrTokenTimestamp :: rest.map Prod.fst) := by
      rw [List.chain'_iff_pairwise] at hchain ⊢
      exact hchain.sublist (List.cons_sublist_cons.mpr (List.sublist_cons_self t _))
    rw [runAddrMsgs, processAddrMessage]
    by_cases hsz : ps.length > MAX_ADDR_TO_SEND
    · rw [if_pos hsz]
      have hsum : windowProcessed a T ((t, 0) :: runAddrMsgs true s rest)
          = windowProcessed a T (runAddrMsgs true s rest) := by
        rw [windowProcessed, windowProcessed, List.filter_cons]
        by_cases hin : decide (a ≤ t ∧ t ≤ a + T) = true
        · rw [if_pos hin]
          simp
        · rw [if_neg hin]
      rw [hsum]
      exact ih s hchainS h0 hts
    · rw [if_neg hsz]
      have hacct := addrLoop_accounting ps (refillBucket s t) 0
      have hb1nn : 0 ≤ refillBucket s t := refillBucket_nonneg s t h0
      have hrrnn : 0 ≤ (addrLoop true ps (refillBucket s t) 0).1 :=
        hacct.2.2 hb1nn
      have hradd : refillBucket s t ≤ s.addrTokenBucket
          + (t - s.addrTokenTimestamp) * MAX_ADDR_RATE_PER_SECOND := by
        have h2 := refillBucket_le_add s t
        rw [max_eq_left (by linarith : (0 : ℚ) ≤ t - s.addrTokenTimestamp)] at h2
        exact h2
      have hp : ((addrLoop true ps (refillBucket s t) 0).2 : ℚ)
          ≤ refillBucket s t - (addrLoop true ps (refillBucket s t) 0).1 := by
        have h1 := hacct.1
        push_cast at h1
        linarith
      by_cases htw : t ≤ a + T
      · have hrest := ih ⟨(addrLoop true ps (refillBucket s t) 0).1, t⟩
          (by simpa using hchain2) hrrnn htw
        simp only at hrest
        rw [windowProcessed, List.filter_cons]
        rw [windowProcessed] at hrest
        by_cases hin : decide (a ≤ t ∧ t ≤ a + T) = true
        · rw [if_pos hin]
          simp only [List.map_cons, List.sum_cons]
          push_cast
          push_cast at hrest
          simp only [MAX_ADDR_RATE_PER_SECOND] at hradd hrest ⊢
          linarith
        · rw [if_neg hin]
          push_cast at hrest ⊢
          simp only [MAX_ADDR_RATE_PER_SECOND] at hradd hrest ⊢
          linarith
      · have hgt : a + T < t := lt_of_not_le htw
        have hzero := windowProcessed_zero a T true rest
          ⟨(addrLoop true ps (refillBucket s t) 0).1, t⟩ (by
            intro m hm
            have hpair := List.chain'_iff_pairwise.mp hchain2
            have hle := List.rel_of_pairwise_cons hpair
              (List.mem_map_of_mem Prod.fst hm)
            linarith)
        rw [windowProcessed, List.filter_cons]
        rw [if_neg (by
          simp only [decide_eq_true_eq, not_and, not_le]
          intro _
          exact hgt)]
        rw [windowProcessed] at hzero
        rw [hzero]
        have hnn : 0 ≤ (a + T - s.addrTokenTimestamp) * MAX_ADDR_RATE_PER_SECOND := by
          apply mul_nonneg (by linarith)
          norm_num [MAX_ADDR_RATE_PER_SECOND]
        push_cast
        linarith

/-- Whole-run accounting: from any state with a bucket in `[0, 1001]`
(every reachable state — see `addrRateLimit_bound`), any window of length
`T` sees at most `1001 + 0.1 T` processed addresses. -/
theorem windowProcessed_phase1 (a T : ℚ) (hT : 0 ≤ T)
    (msgs : List (ℚ × List Bool)) :
    ∀ s : AddrPeerState,
      List.Chain' (· ≤ ·) (s.addrTokenTimestamp :: msgs.map Prod.fst) →
      0 ≤ s.addrTokenBucket →
      s.addrTokenBucket ≤ 1001 →
      (windowProcessed a T (runAddrMsgs true s msgs) : ℚ)
        ≤ 1001 + T * MAX_ADDR_RATE_PER_SECOND := by
  induction msgs with
  | nil =>
    intro s _ _ _
    have hz : (windowProcessed a T (runAddrMsgs true s []) : ℚ) = 0 := by
      norm_num [runAddrMsgs, windowProcessed]
    rw [hz]
    have : 0 ≤ T * MAX_ADDR_RATE_PER_SECOND := by
      apply mul_nonneg hT
      norm_num [MAX_ADDR_RATE_PER_SECOND]
    linarith
  | cons m rest ih =>
    intro s hchain h0 h1001
    obtain ⟨t, ps⟩ := m
    simp only [List.map_cons] at hchain
    have hst : s.addrTokenTimestamp ≤ t := (List.chain'_cons.mp hchain).1
    have hchain2 : List.Chain' (· ≤ ·) (t :: rest.map Prod.fst) :=
      (List.chain'_cons.mp hchain).2
    have hchainS : List.Chain' (· ≤ ·)
        (s.addrTokenTimestamp :: rest.map Prod.fst) := by
      rw [List.chain'_iff_pairwise] at hchain ⊢
      exact hchain.sublist (List.cons_sublist_cons.mpr (List.sublist_cons_self t _))
    rw [runAddrMsgs, processAddrMessage]
    by_cases hsz : ps.length > MAX_ADDR_TO_SEND
    · rw [if_pos hsz]
      have hsum : windowProcessed a T ((t, 0) :: runAddrMsgs true s rest)
          = windowProcessed a T (runAddrMsgs true s rest) := by
        rw [windowProcessed, windowProcessed, List.filter_cons]
        by_cases hin : decide (a ≤ t ∧ t ≤ a + T) = true
        · rw [if_pos hin]
          simp
        · rw [if_neg hin]
      rw [hsum]
      exact ih s hchainS h0 h1001
    · rw [if_neg hsz]
      have hacct := addrLoop_accounting ps (refillBucket s t) 0
      have hb1nn : 0 ≤ refillBucket s t := refillBucket_nonneg s t h0
      have hb1le : refillBucket s t ≤ 1001 := by
        have := refillBucket_le_max s t
        have hm : max s.addrTokenBucket MAX_ADDR_PROCESSING_TOKEN_BUCKET ≤ 1001 := by
          apply max_le h1001
          norm_num [MAX_ADDR_PROCESSING_TOKEN_BUCKET]
        linarith
      have hrrnn : 0 ≤ (addrLoop true ps (refillBucket s t) 0).1 :=
        hacct.2.2 hb1nn
      have hrrle : (addrLoop true ps (refillBucket s t) 0).1 ≤ 1001 :=
        le_trans hacct.2.1 hb1le
      have hp : ((addrLoop true ps (refillBucket s t) 0).2 : ℚ)
          ≤ refillBucket s t - (addrLoop true ps (refillBucket s t) 0).1 := by
        have h1 := hacct.1
        push_cast at h1
        linarith
      by_cases htw : a + T < t
      · have hzero := windowProcessed_zero a T true rest
          ⟨(addrLoop true ps (refillBucket s t) 0).1, t⟩ (by
            intro m hm
            have hpair := List.chain'_iff_pairwise.mp hchain2
            have hle := List.rel_of_pairwise_cons hpair
              (List.mem_map_of_mem Prod.fst hm)
            linarith)
        rw [windowProcessed, List.filter_cons]
        rw [if_neg (by
          simp only [decide_eq_true_eq, not_and, not_le]
          intro _
          exact htw)]
        rw [windowProcessed] at hzero
        rw [hzero]
        have : 0 ≤ T * MAX_ADDR_RATE_PER_SECOND := by
          apply mul_nonneg hT
          norm_num [MAX_ADDR_RATE_PER_SECOND]
        push_cast
        linarith
      · by_cases hta : a ≤ t
        · -- the message lies inside the window: phase-2 accounting applies
          have hrest := windowProcessed_phase2 a T rest
            ⟨(addrLoop true ps (refillBucket s t) 0).1, t⟩
            (by simpa using hchain2) hrrnn (by linarith)
          simp only at hrest
          rw [windowProcessed, List.filter_cons]
          rw [windowProcessed] at hrest
          rw [if_pos (by
            simp only [decide_eq_true_eq]
            exact ⟨hta, by linarith⟩)]
          simp only [List.map_cons, List.sum_cons]
          push_cast
          push_cast at hrest
          simp only [MAX_ADDR_RATE_PER_SECOND] at hp hrest ⊢
          linarith
        · -- the message precedes the window: no contribution, recurse
          have hrec := ih ⟨(addrLoop true ps (refillBucket s t) 0).1, t⟩
            (by simpa using hchain2) hrrnn hrrle
          simp only at hrec
          rw [windowProcessed, List.filter_cons]
          rw [if_neg (by
            simp only [decide_eq_true_eq, not_and, not_le]
            intro ha
            exact absurd ha hta)]
          rw [windowProcessed] at hrec
          exact hrec

theorem addrLoop_replicate_true (n : Nat) : ∀ (b : ℚ) (k : Nat), (n : ℚ) ≤ b →
    addrLoop true (List.replicate n true) b k = (b - n, k + n) := by
  induction n with
  | zero =>
    intro b k _
    simp [addrLoop]
  | succ n ih =>
    intro b k h
    rw [List.replicate_succ, addrLoop]
    have hb : ¬ b < 1 := by
      push_cast at h
      intro hc
      linarith
    rw [if_neg hb]
    have hrec := ih (b - 1) (k + if True then 1 else 0) (by push_cast at h ⊢; linarith)
    simp only [if_true] at hrec ⊢
    rw [hrec]
    simp only [Prod.mk.injEq]
    constructor
    · push_cast
      ring
    · omega

/-- C4 (counterexample): the claimed bound `1000 + 0.1 T` fails.  An
outbound peer's bucket starts at `1.0` and the one-time getaddr credit
raises it to `1001.0`; two back-to-back messages (1000 addresses and then
1 address, all at time 0) get 1001 addresses processed inside a window of
length `T = 0`, exceeding `1000 + 0.1·0 = 1000`. -/
theorem addrRateLimit_cex :
    windowProcessed 0 0 (runAddrMsgs true (connectAddrState 0 true)
        [((0 : ℚ), List.replicate 1000 true), ((0 : ℚ), [true])]) = 1001 ∧
      ¬ ((1001 : ℚ) ≤ 1000 + MAX_ADDR_RATE_PER_SECOND * 0) := by
  have h1 : connectAddrState 0 true = ⟨1001, 0⟩ := by
    norm_num [connectAddrState, creditGetaddrTokens, initAddrPeer]
  have hloop1 : addrLoop true (List.replicate 1000 true) (1001 : ℚ) 0
      = ((1 : ℚ), 1000) := by
    rw [addrLoop_replicate_true 1000 1001 0 (by norm_num)]
    norm_num
  have hloop2 : addrLoop true (List.replicate 1 true) (1 : ℚ) 0
      = ((0 : ℚ), 1) := by
    rw [addrLoop_replicate_true 1 1 0 (by norm_num)]
    norm_num
  have hrefill1 : refillBucket ⟨1001, 0⟩ 0 = (1001 : ℚ) := by
    rw [refillBucket]
    norm_num [MAX_ADDR_PROCESSING_TOKEN_BUCKET]
  have hrefill2 : refillBucket ⟨1, 0⟩ 0 = (1 : ℚ) := by
    rw [refillBucket]
    norm_num [MAX_ADDR_PROCESSING_TOKEN_BUCKET, MAX_ADDR_RATE_PER_SECOND]
  have hm1 : processAddrMessage true 0 (List.replicate 1000 true) ⟨1001, 0⟩
      = (⟨1, 0⟩, 1000) := by
    rw [processAddrMessage, if_neg (by norm_num [MAX_ADDR_TO_SEND]), hrefill1, hloop1]
  have hm2 : processAddrMessage true 0 [true] ⟨1, 0⟩ = (⟨0, 0⟩, 1) := by
    have hone : [true] = List.replicate 1 true := rfl
    rw [processAddrMessage, if_neg (by norm_num [MAX_ADDR_TO_SEND]), hrefill2,
      hone, hloop2]
  constructor
  · rw [h1]
    rw [runAddrMsgs, hm1]
    rw [runAddrMsgs, hm2]
    rw [runAddrMsgs, windowProcessed]
    norm_num
  · norm_num [MAX_ADDR_RATE_PER_SECOND]

/-- C4 (amended): for a peer without the `Addr` permission, over any time
window `[a, a+T]`, the number of addresses processed from its addr/addrv2
messages is at most `1001 + 0.1·T` — the extra token over the claimed
`1000 + 0.1·T` comes from the bucket's initial value `1.0`, which the
one-time getaddr credit of `+1000` can raise to `1001`.  The bucket
refills at 0.1 tokens/second only up to the 1000 cap, each processed
address costs one token, and addresses arriving with an empty bucket are
dropped. -/
theorem addrRateLimit_bound (credited : Bool) (t0 a T : ℚ)
    (msgs : List (ℚ × List Bool)) (hT : 0 ≤ T)
    (hchain : List.Chain' (· ≤ ·) (t0 :: msgs.map Prod.fst)) :
    (windowProcessed a T
        (runAddrMsgs true (connectAddrState t0 credited) msgs) : ℚ)
      ≤ 1001 + T * MAX_ADDR_RATE_PER_SECOND := by
  apply windowProcessed_phase1 a T hT msgs (connectAddrState t0 credited)
  · cases credited <;> simpa [connectAddrState, creditGetaddrTokens, initAddrPeer]
      using hchain
  · cases credited <;> norm_num [connectAddrState, creditGetaddrTokens, initAddrPeer]
  · cases credited <;> norm_num [connectAddrState, creditGetaddrTokens, initAddrPeer]

/-- C4 (witness): the amended bound evaluated on a concrete one-message
run: a credited peer processing one address at time 0 stays within
`1001 + 0.1·0`. -/
theorem addrRateLimit_bound_witness :
    (windowProcessed 0 0 (runAddrMsgs true (connectAddrState 0 true)
        [((0 : ℚ), [true])]) : ℚ) ≤ 1001 + 0 * MAX_ADDR_RATE_PER_SECOND :=
  addrRateLimit_bound true 0 0 0 [((0 : ℚ), [true])] (by norm_num) (by
    simp only [List.map_cons, List.map_nil]
    exact List.chain'_pair.mpr (by norm_num))

end NetProcessing

namespace ChaCha

/-! ## ChaCha20 (crypto/chacha20.cpp)

`ChaCha20Aligned` keeps a 16-word state `input[16]`; `Keystream64` and
`Crypt64` run the 20-round block function per 64-byte block and advance
the 64-bit block counter (`input[12]`, `input[13]`), and the byte-level
`ChaCha20::Keystream`/`ChaCha20::Crypt` (crypto/chacha20.cpp:297-330)
handle the final partial block through a stack buffer.  `uint32_t`
arithmetic is `Nat` with `% 2^32`; bytes are `Nat < 256` produced by
little-endian word serialization (`WriteLE32`). -/

/-- `2^32`, the modulus of `uint32_t` arithmetic. -/
def M32 : Nat := 4294967296

def add32 (a b : Nat) : Nat := (a + b) % M32

/-- `rotl32` (crypto/chacha20.cpp:14): `(v << c) | (v >> (32 - c))` on
`uint32_t`. -/
def rotl32 (v c : Nat) : Nat := ((v <<< c) ||| (v >>> (32 - c))) % M32

/-- `QUARTERROUND(a,b,c,d)` (crypto/chacha20.cpp:16-20). -/
def qround (a b c d : Nat) : Nat × Nat × Nat × Nat :=
  let a1 := add32 a b
  let d1 := rotl32 (d ^^^ a1) 16
  let c1 := add32 c d1
  let b1 := rotl32 (b ^^^ c1) 12
  let a2 := add32 a1 b1
  let d2 := rotl32 (d1 ^^^ a2) 8
  let c2 := add32 c1 d2
  let b2 := rotl32 (b1 ^^^ c2) 7
  (a2, b2, c2, d2)

/-- The 16-word ChaCha20 state (`uint32_t input[16]`). -/
structure Regs where
  x0 : Nat
  x1 : Nat
  x2 : Nat
  x3 : Nat
  x4 : Nat
  x5 : Nat
  x6 : Nat
  x7 : Nat
  x8 : Nat
  x9 : Nat
  x10 : Nat
  x11 : Nat
  x12 : Nat
  x13 : Nat
  x14 : Nat
  x15 : Nat
deriving DecidableEq, Repr

/-- One double round: the four column quarter-rounds followed by the four
diagonal quarter-rounds (crypto/chacha20.cpp:120-129). -/
def doubleRound (s : Regs) : Regs :=
  let (a0, b0, c0, d0) := qround s.x0 s.x4 s.x8 s.x12
  let (a1, b1, c1, d1) := qround s.x1 s.x5 s.x9 s.x13
  let (a2, b2, c2, d2) := qround s.x2 s.x6 s.x10 s.x14
  let (a3, b3, c3, d3) := qround s.x3 s.x7 s.x11 s.x15
  let (e0, f1, g2, h3) := qround a0 b1 c2 d3
  let (e1, f2, g3, h0) := qround a1 b2 c3 d0
  let (e2, f3, g0, h1) := qround a2 b3 c0 d1
  let (e3, f0, g1, h2) := qround a3 b0 c1 d2
  ⟨e0, e1, e2, e3, f0, f1, f2, f3, g0, g1, g2, g3, h0, h1, h2, h3⟩

/-- `REPEAT10` of the double round: the 20 ChaCha20 rounds. -/
def rounds20 (s : Regs) : Regs := doubleRound^[10] s

/-- The feed-forward `x_i += j_i` (crypto/chacha20.cpp:131-146). -/
def addRegs (x j : Regs) : Regs :=
  ⟨add32 x.x0 j.x0, add32 x.x1 j.x1, add32 x.x2 j.x2, add32 x.x3 j.x3,
    add32 x.x4 j.x4, add32 x.x5 j.x5, add32 x.x6 j.x6, add32 x.x7 j.x7,
    add32 x.x8 j.x8, add32 x.x9 j.x9, add32 x.x10 j.x10, add32 x.x11 j.x11,
    add32 x.x12 j.x12, add32 x.x13 j.x13, add32 x.x14 j.x14, add32 x.x15 j.x15⟩

/-- `WriteLE32`: the four little-endian bytes of a 32-bit word. -/
def le32Bytes (w : Nat) : List Nat :=
  [w % 256, w / 256 % 256, w / 65536 % 256, w / 16777216 % 256]

/-- The 64 output bytes of one ChaCha20 block from state `j`. -/
def chachaBlockBytes (j : Regs) : List Nat :=
  let x := addRegs (rounds20 j) j
  le32Bytes x.x0 ++ le32Bytes x.x1 ++ le32Bytes x.x2 ++ le32Bytes x.x3 ++
  le32Bytes x.x4 ++ le32Bytes x.x5 ++ le32Bytes x.x6 ++ le32Bytes x.x7 ++
  le32Bytes x.x8 ++ le32Bytes x.x9 ++ le32Bytes x.x10 ++ le32Bytes x.x11 ++
  le32Bytes x.x12 ++ le32Bytes x.x13 ++ le32Bytes x.x14 ++ le32Bytes x.x15

/-- `++j12; if (!j12) ++j13;` — the 64-bit block counter increment
(crypto/chacha20.cpp:148-149). -/
def incCounter (s : Regs) : Regs :=
  if (s.x12 + 1) % M32 = 0 then
    { s with x12 := (s.x12 + 1) % M32, x13 := (s.x13 + 1) % M32 }
  else { s with x12 := (s.x12 + 1) % M32 }

/-- `ChaCha20Aligned::Keystream64` (crypto/chacha20.cpp:77-176): emit
`blocks` 64-byte keystream blocks and store the advanced counter. -/
def keystream64 : Regs → Nat → List Nat × Regs
  | s, 0 => ([], s)
  | s, blocks + 1 =>
    (chachaBlockBytes s ++ (keystream64 (incCounter s) blocks).1,
      (keystream64 (incCounter s) blocks).2)

/-- `ChaCha20Aligned::Crypt64` (crypto/chacha20.cpp:178-295): like
`Keystream64` but XORs each keystream word into the message
(`x ^= ReadLE32(m)`). -/
def crypt64 : Regs → List Nat → Nat → List Nat × Regs
  | s, _, 0 => ([], s)
  | s, m, blocks + 1 =>
    (List.zipWith (· ^^^ ·) (chachaBlockBytes s) (m.take 64)
        ++ (crypt64 (incCounter s) (m.drop 64) blocks).1,
      (crypt64 (incCounter s) (m.drop 64) blocks).2)

/-- `ChaCha20::Keystream` (crypto/chacha20.cpp:297-311): whole blocks
first, then a buffered block for the final partial output. -/
def keystreamBytes (s : Regs) (n : Nat) : List Nat × Regs :=
  if n = 0 then ([], s)
  else if n % 64 = 0 then keystream64 s (n / 64)
  else
    ((keystream64 s (n / 64)).1
        ++ (keystream64 (keystream64 s (n / 64)).2 1).1.take (n % 64),
      (keystream64 (keystream64 s (n / 64)).2 1).2)

/-- `ChaCha20::Crypt` (crypto/chacha20.cpp:313-330): whole blocks through
`Crypt64`, then `c[i] = m[i] ^ buffer[i]` over a buffered keystream block
for the final partial piece. -/
def cryptBytes (s : Regs) (m : List Nat) : List Nat × Regs :=
  if m.length = 0 then ([], s)
  else if m.length % 64 = 0 then crypt64 s m (m.length / 64)
  else
    ((crypt64 s m (m.length / 64)).1
        ++ List.zipWith (· ^^^ ·) (m.drop (64 * (m.length / 64)))
            (keystream64 (crypt64 s m (m.length / 64)).2 1).1,
      (keystream64 (crypt64 s m (m.length / 64)).2 1).2)

/-- `ReadLE32` of four consecutive key bytes. -/
def readLE32at (k : List Nat) (i : Nat) : Nat :=
  k.getD i 0 + 256 * k.getD (i + 1) 0 + 65536 * k.getD (i + 2) 0
    + 16777216 * k.getD (i + 3) 0

/-- `ChaCha20Aligned::SetKey` for a 32-byte key
(crypto/chacha20.cpp:27-53): the "expand 32-byte k" constants, eight key
words, and zeroed counter/IV. -/
def setKey32 (key : List Nat) : Regs :=
  ⟨0x61707865, 0x3320646e, 0x79622d32, 0x6b206574,
    readLE32at key 0, readLE32at key 4, readLE32at key 8, readLE32at key 12,
    readLE32at key 16, readLE32at key 20, readLE32at key 24, readLE32at key 28,
    0, 0, 0, 0⟩

/-- `ChaCha20Aligned::SetIV` (crypto/chacha20.cpp:65-69): the low and high
words of the 64-bit IV (`uint32_t` truncation). -/
def setIV (s : Regs) (iv : Nat) : Regs :=
  { s with x14 := iv % M32, x15 := iv / M32 % M32 }

/-- `ChaCha20Aligned::Seek` (crypto/chacha20.cpp:71-75). -/
def seekState (s : Regs) (pos : Nat) : Regs :=
  { s with x12 := pos % M32, x13 := pos / M32 % M32 }

/-- The state after `SetKey(key)`, `SetIV(iv)`, `Seek(counter)`. -/
def chachaState (key : List Nat) (iv counter : Nat) : Regs :=
  seekState (setIV (setKey32 key) iv) counter

theorem chachaBlockBytes_length (s : Regs) : (chachaBlockBytes s).length = 64 := by
  rw [chachaBlockBytes]
  simp [le32Bytes]

theorem keystream64_length (n : Nat) : ∀ s : Regs,
    (keystream64 s n).1.length = 64 * n := by
  induction n with
  | zero => intro s; rfl
  | succ n ih =>
    intro s
    rw [keystream64]
    simp only [List.length_append, chachaBlockBytes_length, ih]
    ring

theorem crypt64_snd (n : Nat) : ∀ (s : Regs) (m : List Nat),
    (crypt64 s m n).2 = (keystream64 s n).2 := by
  induction n with
  | zero => intro s m; rfl
  | succ n ih =>
    intro s m
    rw [crypt64, keystream64]
    exact ih (incCounter s) (m.drop 64)

theorem zipWith_append_left {α : Type} (f : α → α → α) (l1 l2 : List α) :
    ∀ m : List α, List.zipWith f (l1 ++ l2) m
      = List.zipWith f l1 (m.take l1.length)
        ++ List.zipWith f l2 (m.drop l1.length) := by
  induction l1 with
  | nil => intro m; simp
  | cons a l1 ih =>
    intro m
    cases m with
    | nil => simp
    | cons b m =>
      simp only [List.cons_append, List.zipWith_cons_cons, List.length_cons,
        List.take_succ_cons, List.drop_succ_cons]
      rw [ih m]

theorem zipWith_take_right {α : Type} (f : α → α → α) :
    ∀ l1 l2 : List α, List.zipWith f l1 l2
      = List.zipWith f l1 (l2.take l1.length) := by
  intro l1
  induction l1 with
  | nil => intro l2; simp
  | cons a l1 ih =>
    intro l2
    cases l2 with
    | nil => simp
    | cons b l2 =>
      simp only [List.zipWith_cons_cons, List.length_cons, List.take_succ_cons]
      rw [← ih l2]

theorem crypt64_fst (n : Nat) : ∀ (s : Regs) (m : List Nat), 64 * n ≤ m.length →
    (crypt64 s m n).1
      = List.zipWith (· ^^^ ·) (keystream64 s n).1 (m.take (64 * n)) := by
  induction n with
  | zero => intro s m _; rfl
  | succ n ih =>
    intro s m hlen
    rw [crypt64, keystream64]
    simp only
    have hsplit : m.take (64 * (n + 1)) = m.take 64 ++ (m.drop 64).take (64 * n) := by
      have : 64 * (n + 1) = 64 + 64 * n := by ring
      rw [this, List.take_add]
    rw [hsplit]
    rw [zipWith_append_left]
    have htk : (m.take 64).length = 64 := by
      rw [List.length_take]
      omega
    rw [chachaBlockBytes_length]
    have hdrop : 64 * n ≤ (m.drop 64).length := by
      rw [List.length_drop]
      omega
    rw [ih (incCounter s) (m.drop 64) hdrop]
    congr 1
    · congr 1
      rw [List.take_append_of_le_length (le_of_eq htk.symm)]
      simp
    · congr 1
      rw [List.drop_append_of_le_length (le_of_eq htk.symm)]
      rw [List.drop_eq_nil_of_le (le_of_eq htk)]
      simp

theorem keystreamBytes_length (s : Regs) (n : Nat) :
    (keystreamBytes s n).1.length = n := by
  rw [keystreamBytes]
  by_cases h0 : n = 0
  · rw [if_pos h0, h0]
    rfl
  · rw [if_neg h0]
    by_cases hm : n % 64 = 0
    · rw [if_pos hm, keystream64_length]
      omega
    · rw [if_neg hm]
      simp only [List.length_append, keystream64_length, List.length_take]
      omega

/-- Byte-level `Crypt` is exactly keystream-XOR-input, with the same
final state as `Keystream` of the same length. -/
theorem cryptBytes_fst (s : Regs) (m : List Nat) :
    (cryptBytes s m).1
      = List.zipWith (· ^^^ ·) (keystreamBytes s m.length).1 m := by
  rw [cryptBytes, keystreamBytes]
  by_cases h0 : m.length = 0
  · rw [if_pos h0, if_pos h0]
    rfl
  · rw [if_neg h0, if_neg h0]
    by_cases hm : m.length % 64 = 0
    · rw [if_pos hm, if_pos hm]
      have hdvd : 64 * (m.length / 64) = m.length := by omega
      rw [crypt64_fst (m.length / 64) s m (by omega)]
      rw [hdvd, List.take_length]
    · rw [if_neg hm, if_neg hm]
      simp only
      rw [crypt64_fst (m.length / 64) s m (by omega)]
      rw [crypt64_snd]
      rw [zipWith_append_left]
      rw [keystream64_length]
      congr 1
      rw [zipWith_take_right ((· ^^^ ·)) (m.drop (64 * (m.length / 64)))]
      rw [List.length_drop]
      have hrem : m.length - 64 * (m.length / 64) = m.length % 64 := by omega
      rw [hrem]
      rw [List.zipWith_comm_of_comm (· ^^^ ·) (fun a b => Nat.xor_comm a b)]

theorem cryptBytes_snd (s : Regs) (m : List Nat) :
    (cryptBytes s m).2 = (keystreamBytes s m.length).2 := by
  rw [cryptBytes, keystreamBytes]
  by_cases h0 : m.length = 0
  · rw [if_pos h0, if_pos h0]
  · rw [if_neg h0, if_neg h0]
    by_cases hm : m.length % 64 = 0
    · rw [if_pos hm, if_pos hm, crypt64_snd]
    · rw [if_neg hm, if_neg hm]
      simp only
      rw [crypt64_snd]

theorem zipWith_xor_zeros : ∀ l : List Nat,
    List.zipWith (· ^^^ ·) l (List.replicate l.length 0) = l := by
  intro l
  induction l with
  | nil => rfl
  | cons a l ih =>
    simp only [List.length_cons, List.replicate_succ, List.zipWith_cons_cons,
      Nat.xor_zero]
    rw [ih]

theorem zipWith_xor_cancel : ∀ k m : List Nat, k.length = m.length →
    List.zipWith (· ^^^ ·) k (List.zipWith (· ^^^ ·) k m) = m := by
  intro k
  induction k with
  | nil =>
    intro m hm
    cases m
    · rfl
    · cases hm
  | cons a k ih =>
    intro m hm
    cases m with
    | nil => cases hm
    | cons b m =>
      simp only [List.zipWith_cons_cons]
      rw [ih m (by simpa using hm)]
      congr 1
      rw [← Nat.xor_assoc, Nat.xor_self, Nat.zero_xor]

/-- C9: from the state built by `SetKey`/`SetIV`/`Seek` for any 32-byte
key, IV, and starting block counter, and for every byte length `n`
(including `n = 0` and `n` not a multiple of 64): `Crypt` on an all-zero
input of length `n` produces exactly `Keystream(n)`, and `Crypt` applied
twice from identical states returns the original input. -/
theorem chacha20_crypt_correct (key : List Nat) (iv counter n : Nat)
    (m : List Nat) (hkey : key.length = 32) :
    (cryptBytes (chachaState key iv counter) (List.replicate n 0)).1
        = (keystreamBytes (chachaState key iv counter) n).1 ∧
      (cryptBytes (chachaState key iv counter)
          (cryptBytes (chachaState key iv counter) m).1).1 = m := by
  constructor
  · rw [cryptBytes_fst]
    rw [List.length_replicate]
    have hlen : (keystreamBytes (chachaState key iv counter) n).1.length = n :=
      keystreamBytes_length _ _
    calc List.zipWith (· ^^^ ·) (keystreamBytes (chachaState key iv counter) n).1
          (List.replicate n 0)
        = List.zipWith (· ^^^ ·) (keystreamBytes (chachaState key iv counter) n).1
          (List.replicate
            (keystreamBytes (chachaState key iv counter) n).1.length 0) := by
          rw [hlen]
      _ = (keystreamBytes (chachaState key iv counter) n).1 :=
          zipWith_xor_zeros _
  · rw [cryptBytes_fst (chachaState key iv counter) m]
    have hout : (List.zipWith (· ^^^ ·)
        (keystreamBytes (chachaState key iv counter) m.length).1 m).length
          = m.length := by
      rw [List.length_zipWith, keystreamBytes_length]
      omega
    rw [cryptBytes_fst, hout]
    exact zipWith_xor_cancel _ m (keystreamBytes_length _ _)

/-- C9 (witness): the theorem applied at a concrete 32-byte key, IV 7,
counter 3, length 5 and message `[1, 2, 3]`. -/
theorem chacha20_crypt_correct_witness :
    (cryptBytes (chachaState (List.replicate 32 9) 7 3)
        (cryptBytes (chachaState (List.replicate 32 9) 7 3) [1, 2, 3]).1).1
      = [1, 2, 3] :=
  (chacha20_crypt_correct (List.replicate 32 9) 7 3 5 [1, 2, 3] (by decide)).2

end ChaCha

namespace GCS

/-! ## Golomb-coded set block filter (blockfilter.cpp, BIP 158)

`GCSFilter` (blockfilter.cpp) encodes an element set by hashing each
element into `[0, N·M)` with keyed SipHash and `FastRange64`, sorting,
and Golomb-Rice coding the deltas with parameter `P` after a compact-size
element count; `MatchInternal` stream-decodes and co-iterates with the
sorted query hashes.

Modelled from the spec, for helpers that are not among the studied
sources: the bit stream (`BitStreamReader`/`BitStreamWriter`, streams.h)
writes most-significant bit first and the writer's `Flush` pads the last
byte with zero bits; `GolombRiceEncode`/`GolombRiceDecode`
(util/golombrice.h) emit `⌊d/2^P⌋` one-bits, a zero, then the low `P`
bits of `d` big-endian, and decoding inverts that;
`ReadCompactSize`/`WriteCompactSize` (serialize.h) are the standard
canonical Bitcoin compact-size encoding; `CSipHasher` (crypto/siphash)
is SipHash-2-4, and `FastRange64 x F = (x·F) >> 64`. -/

/-- The `n` low bits of `v`, most significant first (the order
`BitStreamWriter::Write` emits them). -/
def natBitsBE : Nat → Nat → List Bool
  | 0, _ => []
  | n + 1, v => decide (v / 2 ^ n % 2 = 1) :: natBitsBE n (v % 2 ^ n)

/-- `BitStreamReader::Read<n>`: consume `n` bits, most significant first,
into an accumulator. -/
def readBitsBE : Nat → List Bool → Nat → Option (Nat × List Bool)
  | 0, bits, acc => some (acc, bits)
  | _ + 1, [], _ => none
  | n + 1, b :: bits, acc => readBitsBE n bits (2 * acc + if b then 1 else 0)

/-- Read the unary quotient: count one-bits up to the zero terminator. -/
def readUnary : List Bool → Option (Nat × List Bool)
  | [] => none
  | false :: rest => some (0, rest)
  | true :: rest =>
    match readUnary rest with
    | none => none
    | some (q, r) => some (q + 1, r)

/-- `GolombRiceEncode` at the bit level: `⌊d/2^P⌋` one-bits, a zero
terminator, then the low `P` bits of `d` big-endian. -/
def grEncodeBits (P d : Nat) : List Bool :=
  List.replicate (d >>> P) true ++ false :: natBitsBE P (d % 2 ^ P)

/-- `GolombRiceDecode` at the bit level: unary quotient, then `P`
remainder bits; the value is `q·2^P + r` (the bit-or of the C++ code on
disjoint bit ranges). -/
def grDecodeBits (P : Nat) (bits : List Bool) : Option (Nat × List Bool) :=
  match readUnary bits with
  | none => none
  | some (q, rest) =>
    match readBitsBE P rest 0 with
    | none => none
    | some (r, rest') => some (q * 2 ^ P + r, rest')

/-- The concatenated Golomb-Rice codewords of a delta sequence. -/
def grEncodeList (P : Nat) : List Nat → List Bool
  | [] => []
  | d :: ds => grEncodeBits P d ++ grEncodeList P ds

/-- Decode `n` consecutive Golomb-Rice codewords. -/
def grDecodeN (P : Nat) : Nat → List Bool → Option (List Nat × List Bool)
  | 0, bits => some ([], bits)
  | n + 1, bits =>
    match grDecodeBits P bits with
    | none => none
    | some (d, rest) =>
      match grDecodeN P n rest with
      | none => none
      | some (ds, rest') => some (d :: ds, rest')

theorem natBitsBE_length (n : Nat) : ∀ v, (natBitsBE n v).length = n := by
  induction n with
  | zero => intro v; rfl
  | succ n ih =>
    intro v
    rw [natBitsBE]
    simp [ih]

theorem readBitsBE_roundtrip (n : Nat) : ∀ (v acc : Nat) (rest : List Bool),
    readBitsBE n (natBitsBE n v ++ rest) acc
      = some (acc * 2 ^ n + v % 2 ^ n, rest) := by
  induction n with
  | zero =>
    intro v acc rest
    simp [natBitsBE, readBitsBE, Nat.mod_one]
  | succ n ih =>
    intro v acc rest
    rw [natBitsBE, List.cons_append, readBitsBE]
    rw [ih (v % 2 ^ n) (2 * acc + if decide (v / 2 ^ n % 2 = 1) then 1 else 0) rest]
    congr 2
    have hmm : v % 2 ^ n % 2 ^ n = v % 2 ^ n := Nat.mod_mod_of_dvd v dvd_rfl
    have hβ : (if decide (v / 2 ^ n % 2 = 1) then 1 else 0) = v / 2 ^ n % 2 := by
      by_cases hb : v / 2 ^ n % 2 = 1
      · simp [hb]
      · have h0 : v / 2 ^ n % 2 = 0 := by omega
        simp [hb, h0]
    rw [hβ, hmm]
    have hsplit : v % 2 ^ (n + 1) = v % 2 ^ n + 2 ^ n * (v / 2 ^ n % 2) := by
      rw [pow_succ, Nat.mod_mul]
    rw [hsplit]
    ring

theorem readBitsBE_complete (n : Nat) : ∀ (bits : List Bool) (acc v : Nat)
    (rest : List Bool), readBitsBE n bits acc = some (v, rest) →
    ∃ w, w < 2 ^ n ∧ v = acc * 2 ^ n + w ∧ bits = natBitsBE n w ++ rest := by
  induction n with
  | zero =>
    intro bits acc v rest h
    simp only [readBitsBE, Option.some.injEq, Prod.mk.injEq] at h
    obtain ⟨rfl, rfl⟩ := h
    exact ⟨0, by norm_num, by ring, rfl⟩
  | succ n ih =>
    intro bits acc v rest h
    cases bits with
    | nil => cases h
    | cons b bits' =>
      rw [readBitsBE] at h
      obtain ⟨w', hw', hv, hbits⟩ := ih bits' (2 * acc + if b then 1 else 0) v rest h
      have hpos : 0 < 2 ^ n := Nat.pos_pow_of_pos n (by norm_num)
      have hble : (if b then 1 else 0 : Nat) ≤ 1 := by
        by_cases hb : b
        · simp [hb]
        · simp [hb]
      refine ⟨w' + 2 ^ n * (if b then 1 else 0), ?_, ?_, ?_⟩
      · calc w' + 2 ^ n * (if b then 1 else 0)
            ≤ w' + 2 ^ n * 1 := by
              exact Nat.add_le_add_left (Nat.mul_le_mul_left _ hble) w'
          _ < 2 ^ n + 2 ^ n := by omega
          _ = 2 ^ (n + 1) := by ring
      · rw [hv, pow_succ]
        ring
      · have hdiv : (w' + 2 ^ n * (if b then 1 else 0)) / 2 ^ n
            = (if b then 1 else 0 : Nat) := by
          rw [Nat.add_mul_div_left w' _ hpos, Nat.div_eq_of_lt hw', Nat.zero_add]
        have hmod : (w' + 2 ^ n * (if b then 1 else 0)) % 2 ^ n = w' := by
          rw [Nat.add_mul_mod_self_left, Nat.mod_eq_of_lt hw']
        rw [natBitsBE, hdiv, hmod, hbits]
        congr 1
        by_cases hb : b
        · simp [hb]
        · simp [hb]

theorem readBitsBE_succeeds (n : Nat) : ∀ (bits : List Bool) (acc : Nat),
    n ≤ bits.length → ∃ v rest, readBitsBE n bits acc = some (v, rest) := by
  induction n with
  | zero =>
    intro bits acc _
    exact ⟨acc, bits, rfl⟩
  | succ n ih =>
    intro bits acc hlen
    cases bits with
    | nil => simp at hlen
    | cons b bits' =>
      rw [readBitsBE]
      exact ih bits' _ (by simpa using hlen)

theorem readUnary_roundtrip (q : Nat) : ∀ rest : List Bool,
    readUnary (List.replicate q true ++ false :: rest) = some (q, rest) := by
  induction q with
  | zero => intro rest; rfl
  | succ q ih =>
    intro rest
    rw [List.replicate_succ, List.cons_append, readUnary, ih rest]

theorem readUnary_complete : ∀ (bits : List Bool) (q : Nat) (rest : List Bool),
    readUnary bits = some (q, rest) →
    bits = List.replicate q true ++ false :: rest := by
  intro bits
  induction bits with
  | nil =>
    intro q rest h
    cases h
  | cons b bits' ih =>
    intro q rest h
    cases b with
    | false =>
      simp only [readUnary, Option.some.injEq, Prod.mk.injEq] at h
      obtain ⟨rfl, rfl⟩ := h
      rfl
    | true =>
      rw [readUnary] at h
      cases hrec : readUnary bits' with
      | none =>
        simp only [hrec] at h
        cases h
      | some p =>
        obtain ⟨q', r'⟩ := p
        simp only [hrec, Option.some.injEq, Prod.mk.injEq] at h
        obtain ⟨rfl, rfl⟩ := h
        rw [ih q' r' hrec]
        rw [List.replicate_succ, List.cons_append]

theorem grDecodeBits_roundtrip (P d : Nat) (rest : List Bool) :
    grDecodeBits P (grEncodeBits P d ++ rest) = some (d, rest) := by
  rw [grEncodeBits, grDecodeBits]
  rw [List.append_assoc, List.cons_append]
  simp only [readUnary_roundtrip, readBitsBE_roundtrip]
  have hmod : d % 2 ^ P % 2 ^ P = d % 2 ^ P := Nat.mod_mod_of_dvd d dvd_rfl
  rw [hmod]
  have hval : d >>> P * 2 ^ P + (0 * 2 ^ P + d % 2 ^ P) = d := by
    rw [Nat.shiftRight_eq_div_pow]
    have h2 : d / 2 ^ P * 2 ^ P + d % 2 ^ P = d := Nat.div_add_mod' d (2 ^ P)
    omega
  rw [hval]

theorem grDecodeBits_complete (P : Nat) (bits : List Bool) (d : Nat)
    (rest : List Bool) (h : grDecodeBits P bits = some (d, rest)) :
    bits = grEncodeBits P d ++ rest := by
  rw [grDecodeBits] at h
  cases hu : readUnary bits with
  | none =>
    simp only [hu] at h
    cases h
  | some p =>
    obtain ⟨q, r⟩ := p
    simp only [hu] at h
    cases hr : readBitsBE P r 0 with
    | none =>
      simp only [hr] at h
      cases h
    | some p2 =>
      obtain ⟨w, r2⟩ := p2
      simp only [hr, Option.some.injEq, Prod.mk.injEq] at h
      obtain ⟨rfl, rfl⟩ := h
      obtain ⟨w2, hw2, hv, hbits⟩ := readBitsBE_complete P r 0 w r2 hr
      rw [Nat.zero_mul, Nat.zero_add] at hv
      rw [← hv] at hw2 hbits
      have hq : (q * 2 ^ P + w) >>> P = q := by
        rw [Nat.shiftRight_eq_div_pow]
        rw [Nat.mul_comm q (2 ^ P), Nat.mul_add_div (Nat.pos_pow_of_pos P (by norm_num))]
        rw [Nat.div_eq_of_lt hw2]
        omega
      have hwm : (q * 2 ^ P + w) % 2 ^ P = w := by
        rw [Nat.mul_comm q (2 ^ P), Nat.mul_add_mod, Nat.mod_eq_of_lt hw2]
      rw [readUnary_complete bits q r hu, hbits]
      rw [grEncodeBits, hq, hwm]
      simp

theorem grDecodeN_roundtrip (P : Nat) (ds : List Nat) : ∀ rest : List Bool,
    grDecodeN P ds.length (grEncodeList P ds ++ rest) = some (ds, rest) := by
  induction ds with
  | nil => intro rest; rfl
  | cons d ds ih =>
    intro rest
    rw [List.length_cons, grEncodeList, grDecodeN]
    rw [List.append_assoc]
    simp only [grDecodeBits_roundtrip, ih rest]

theorem grDecodeN_complete (P : Nat) (n : Nat) : ∀ (bits : List Bool)
    (ds : List Nat) (rest : List Bool), grDecodeN P n bits = some (ds, rest) →
    ds.length = n ∧ bits = grEncodeList P ds ++ rest := by
  induction n with
  | zero =>
    intro bits ds rest h
    simp only [grDecodeN, Option.some.injEq, Prod.mk.injEq] at h
    obtain ⟨rfl, rfl⟩ := h
    exact ⟨rfl, rfl⟩
  | succ n ih =>
    intro bits ds rest h
    rw [grDecodeN] at h
    cases hd : grDecodeBits P bits with
    | none =>
      simp only [hd] at h
      cases h
    | some p =>
      obtain ⟨d, r⟩ := p
      simp only [hd] at h
      cases hds : grDecodeN P n r with
      | none =>
        simp only [hds] at h
        cases h
      | some p2 =>
        obtain ⟨ds', r2⟩ := p2
        simp only [hds, Option.some.injEq, Prod.mk.injEq] at h
        obtain ⟨rfl, rfl⟩ := h
        obtain ⟨hlen, hbits⟩ := ih r ds' r2 hds
        refine ⟨by simp [hlen], ?_⟩
        rw [grDecodeBits_complete P bits d r hd, hbits, grEncodeList]
        rw [List.append_assoc]

/-- The eight bits of a byte, most significant first (the order in which
`BitStreamReader` serves a pulled byte). -/
def bitsOfByte (b : Nat) : List Bool := natBitsBE 8 b

/-- The byte whose MSB-first bits are the given eight bits
(`BitStreamWriter` packing). -/
def byteOfBits (bits : List Bool) : Nat :=
  bits.foldl (fun a b => 2 * a + if b then 1 else 0) 0

/-- The bit stream of a byte vector. -/
def unpackBits : List Nat → List Bool
  | [] => []
  | b :: bs => bitsOfByte b ++ unpackBits bs

/-- Pack a bit stream whose length is a multiple of eight into bytes. -/
def packBits (bits : List Bool) : List Nat :=
  if h : bits = [] then []
  else byteOfBits (bits.take 8) :: packBits (bits.drop 8)
termination_by bits.length
decreasing_by
  rw [List.length_drop]
  have : bits.length ≠ 0 := fun hc => h (List.eq_nil_of_length_eq_zero hc)
  omega

/-- `BitStreamWriter::Flush`: zero-pad the bit stream to a byte
boundary. -/
def padTo8 (bits : List Bool) : List Bool :=
  bits ++ List.replicate ((8 - bits.length % 8) % 8) false

set_option maxRecDepth 4096 in
theorem byteOfBits_natBitsBE : ∀ w < 256, byteOfBits (natBitsBE 8 w) = w := by
  decide

theorem natBitsBE_byteOfBits :
    ∀ b0 b1 b2 b3 b4 b5 b6 b7 : Bool,
      natBitsBE 8 (byteOfBits [b0, b1, b2, b3, b4, b5, b6, b7])
        = [b0, b1, b2, b3, b4, b5, b6, b7] := by
  decide

theorem unpackBits_length : ∀ bs : List Nat,
    (unpackBits bs).length = 8 * bs.length := by
  intro bs
  induction bs with
  | nil => rfl
  | cons b bs ih =>
    rw [unpackBits, List.length_append, ih, bitsOfByte, natBitsBE_length]
    simp only [List.length_cons]
    ring

theorem unpackBits_packBits : ∀ (n : Nat) (bits : List Bool),
    bits.length = 8 * n → unpackBits (packBits bits) = bits := by
  intro n
  induction n with
  | zero =>
    intro bits hlen
    have hnil : bits = [] := List.eq_nil_of_length_eq_zero (by omega)
    subst hnil
    rw [packBits]
    simp [unpackBits]
  | succ n ih =>
    intro bits hlen
    match bits, hlen with
    | b0 :: b1 :: b2 :: b3 :: b4 :: b5 :: b6 :: b7 :: rest, hlen =>
      rw [packBits, dif_neg (by simp)]
      have htake : (b0 :: b1 :: b2 :: b3 :: b4 :: b5 :: b6 :: b7 :: rest).take 8
          = [b0, b1, b2, b3, b4, b5, b6, b7] := rfl
      have hdrop : (b0 :: b1 :: b2 :: b3 :: b4 :: b5 :: b6 :: b7 :: rest).drop 8
          = rest := rfl
      rw [htake, hdrop, unpackBits, bitsOfByte, natBitsBE_byteOfBits]
      rw [ih rest (by simp at hlen; omega)]
      rfl

theorem packBits_unpackBits : ∀ bs : List Nat, (∀ b ∈ bs, b < 256) →
    packBits (unpackBits bs) = bs := by
  intro bs
  induction bs with
  | nil =>
    intro _
    rw [unpackBits, packBits]
    simp
  | cons b bs ih =>
    intro hlt
    rw [unpackBits, bitsOfByte]
    have hlen : (natBitsBE 8 b).length = 8 := natBitsBE_length 8 b
    have hne : natBitsBE 8 b ++ unpackBits bs ≠ [] := by
      intro hc
      have := congrArg List.length hc
      rw [List.length_append, hlen] at this
      simp at this
    rw [packBits, dif_neg hne]
    rw [List.take_left' hlen, List.drop_left' hlen]
    rw [byteOfBits_natBitsBE b (hlt b (List.mem_cons_self _ _))]
    rw [ih (fun x hx => hlt x (List.mem_cons_of_mem _ hx))]

/-- `k` little-endian bytes of `v` (`ser_writedata16/32/64`). -/
def writeLE : Nat → Nat → List Nat
  | 0, _ => []
  | k + 1, v => v % 256 :: writeLE k (v / 256)

/-- Read `k` little-endian bytes (`ser_readdata16/32/64`). -/
def readLE : Nat → List Nat → Option (Nat × List Nat)
  | 0, bs => some (0, bs)
  | _ + 1, [] => none
  | k + 1, b :: bs =>
    match readLE k bs with
    | none => none
    | some (v, rest) => some (b + 256 * v, rest)

theorem readLE_roundtrip (k : Nat) : ∀ (v : Nat) (rest : List Nat),
    readLE k (writeLE k v ++ rest) = some (v % 256 ^ k, rest) := by
  induction k with
  | zero =>
    intro v rest
    simp [writeLE, readLE, Nat.mod_one]
  | succ k ih =>
    intro v rest
    rw [writeLE, List.cons_append, readLE]
    simp only [ih (v / 256) rest]
    congr 2
    rw [pow_succ']
    rw [Nat.mod_mul]

theorem readLE_complete (k : Nat) : ∀ (bs : List Nat) (v : Nat)
    (rest : List Nat), (∀ b ∈ bs, b < 256) → readLE k bs = some (v, rest) →
    v < 256 ^ k ∧ bs = writeLE k v ++ rest := by
  induction k with
  | zero =>
    intro bs v rest _ h
    simp only [readLE, Option.some.injEq, Prod.mk.injEq] at h
    obtain ⟨rfl, rfl⟩ := h
    exact ⟨by norm_num, rfl⟩
  | succ k ih =>
    intro bs v rest hlt h
    cases bs with
    | nil => cases h
    | cons b bs' =>
      rw [readLE] at h
      cases hrec : readLE k bs' with
      | none =>
        simp only [hrec] at h
        cases h
      | some p =>
        obtain ⟨v', r'⟩ := p
        simp only [hrec, Option.some.injEq, Prod.mk.injEq] at h
        obtain ⟨rfl, rfl⟩ := h
        obtain ⟨hv', hbs'⟩ := ih bs' v' r'
          (fun x hx => hlt x (List.mem_cons_of_mem _ hx)) hrec
        have hb : b < 256 := hlt b (List.mem_cons_self _ _)
        constructor
        · calc b + 256 * v' < 256 + 256 * v' := by omega
            _ ≤ 256 + 256 * (256 ^ k - 1) := by
                have : v' ≤ 256 ^ k - 1 := by omega
                omega
            _ ≤ 256 * 256 ^ k := by
                have hpos : 1 ≤ 256 ^ k := Nat.one_le_pow k 256 (by norm_num)
                omega
            _ = 256 ^ (k + 1) := by rw [pow_succ']
        · rw [writeLE]
          have hmod : (b + 256 * v') % 256 = b := by
            rw [Nat.add_mul_mod_self_left, Nat.mod_eq_of_lt hb]
          have hdiv : (b + 256 * v') / 256 = v' := by
            rw [Nat.add_mul_div_left b v' (by norm_num : (0:Nat) < 256)]
            rw [Nat.div_eq_of_lt hb, Nat.zero_add]
          rw [hmod, hdiv, hbs']
          rfl

/-- `WriteCompactSize` (serialize.h, modelled from the spec): the
standard Bitcoin compact-size encoding. -/
def writeCompactSize (n : Nat) : List Nat :=
  if n < 253 then [n]
  else if n ≤ 0xFFFF then 253 :: writeLE 2 n
  else if n ≤ 0xFFFFFFFF then 254 :: writeLE 4 n
  else 255 :: writeLE 8 n

/-- `ReadCompactSize` (serialize.h, modelled from the spec): the standard
canonical compact-size decoder ("non-canonical ReadCompactSize" data is
rejected). -/
def readCompactSize : List Nat → Option (Nat × List Nat)
  | [] => none
  | ch :: rest =>
    if ch < 253 then some (ch, rest)
    else if ch = 253 then
      match readLE 2 rest with
      | none => none
      | some (v, r) => if v < 253 then none else some (v, r)
    else if ch = 254 then
      match readLE 4 rest with
      | none => none
      | some (v, r) => if v < 0x10000 then none else some (v, r)
    else
      match readLE 8 rest with
      | none => none
      | some (v, r) => if v < 0x100000000 then none else some (v, r)

theorem readCompactSize_roundtrip (n : Nat) (rest : List Nat)
    (hn : n < 2 ^ 64) :
    readCompactSize (writeCompactSize n ++ rest) = some (n, rest) := by
  rw [writeCompactSize]
  by_cases h1 : n < 253
  · rw [if_pos h1]
    rw [List.cons_append, readCompactSize, if_pos h1]
    simp
  · rw [if_neg h1]
    by_cases h2 : n ≤ 0xFFFF
    · rw [if_pos h2, List.cons_append, readCompactSize,
        if_neg (by norm_num), if_pos rfl]
      simp only [readLE_roundtrip]
      rw [Nat.mod_eq_of_lt (by norm_num; omega)]
      rw [if_neg (by omega)]
    · rw [if_neg h2]
      by_cases h3 : n ≤ 0xFFFFFFFF
      · rw [if_pos h3, List.cons_append, readCompactSize,
          if_neg (by norm_num), if_neg (by norm_num), if_pos rfl]
        simp only [readLE_roundtrip]
        rw [Nat.mod_eq_of_lt (by norm_num; omega)]
        rw [if_neg (by norm_num; omega)]
      · rw [if_neg h3, List.cons_append, readCompactSize,
          if_neg (by norm_num), if_neg (by norm_num), if_neg (by norm_num)]
        simp only [readLE_roundtrip]
        rw [Nat.mod_eq_of_lt (by norm_num at hn ⊢; omega)]
        rw [if_neg (by norm_num; omega)]

theorem readCompactSize_complete (bs : List Nat) (n : Nat) (rest : List Nat)
    (hbytes : ∀ b ∈ bs, b < 256) (h : readCompactSize bs = some (n, rest)) :
    bs = writeCompactSize n ++ rest := by
  cases bs with
  | nil => cases h
  | cons ch r0 =>
    have hch : ch < 256 := hbytes ch (List.mem_cons_self _ _)
    have hr0 : ∀ b ∈ r0, b < 256 := fun b hb => hbytes b (List.mem_cons_of_mem _ hb)
    rw [readCompactSize] at h
    by_cases h1 : ch < 253
    · rw [if_pos h1] at h
      simp only [Option.some.injEq, Prod.mk.injEq] at h
      obtain ⟨rfl, rfl⟩ := h
      rw [writeCompactSize, if_pos h1]
      rfl
    · rw [if_neg h1] at h
      by_cases h2 : ch = 253
      · rw [if_pos h2] at h
        cases hle : readLE 2 r0 with
        | none =>
          simp only [hle] at h
          cases h
        | some p =>
          obtain ⟨v, r⟩ := p
          simp only [hle] at h
          by_cases hv : v < 253
          · rw [if_pos hv] at h
            cases h
          · rw [if_neg hv] at h
            simp only [Option.some.injEq, Prod.mk.injEq] at h
            obtain ⟨rfl, rfl⟩ := h
            obtain ⟨hvlt, hbs⟩ := readLE_complete 2 r0 v r hr0 hle
            rw [writeCompactSize, if_neg hv, if_pos (by norm_num at hvlt ⊢; omega)]
            rw [h2, hbs]
            rfl
      · rw [if_neg h2] at h
        by_cases h3 : ch = 254
        · rw [if_pos h3] at h
          cases hle : readLE 4 r0 with
          | none =>
            simp only [hle] at h
            cases h
          | some p =>
            obtain ⟨v, r⟩ := p
            simp only [hle] at h
            by_cases hv : v < 0x10000
            · rw [if_pos hv] at h
              cases h
            · rw [if_neg hv] at h
              simp only [Option.some.injEq, Prod.mk.injEq] at h
              obtain ⟨rfl, rfl⟩ := h
              obtain ⟨hvlt, hbs⟩ := readLE_complete 4 r0 v r hr0 hle
              rw [writeCompactSize, if_neg (by norm_num at hv ⊢; omega),
                if_neg (by norm_num at hv ⊢; omega),
                if_pos (by norm_num at hvlt ⊢; omega)]
              rw [h3, hbs]
              rfl
        · rw [if_neg h3] at h
          cases hle : readLE 8 r0 with
          | none =>
            simp only [hle] at h
            cases h
          | some p =>
            obtain ⟨v, r⟩ := p
            simp only [hle] at h
            by_cases hv : v < 0x100000000
            · rw [if_pos hv] at h
              cases h
            · rw [if_neg hv] at h
              simp only [Option.some.injEq, Prod.mk.injEq] at h
              obtain ⟨rfl, rfl⟩ := h
              obtain ⟨hvlt, hbs⟩ := readLE_complete 8 r0 v r hr0 hle
              have hch255 : ch = 255 := by omega
              rw [writeCompactSize, if_neg (by norm_num at hv ⊢; omega),
                if_neg (by norm_num at hv ⊢; omega),
                if_neg (by norm_num at hv ⊢; omega)]
              rw [hch255, hbs]
              rfl

/-- `2^64`, the modulus of `uint64_t` arithmetic. -/
def M64 : Nat := 2 ^ 64

def add64 (a b : Nat) : Nat := (a + b) % M64

def rotl64 (v c : Nat) : Nat := ((v <<< c) ||| (v >>> (64 - c))) % M64

/-- The four SipHash state words. -/
structure SipState where
  v0 : Nat
  v1 : Nat
  v2 : Nat
  v3 : Nat
deriving DecidableEq, Repr

/-- One SIPROUND (crypto/siphash, modelled from the spec: SipHash-2-4). -/
def sipRound (s : SipState) : SipState :=
  let v0 := add64 s.v0 s.v1
  let v1 := rotl64 s.v1 13
  let v1x := v1 ^^^ v0
  let v0r := rotl64 v0 32
  let v2 := add64 s.v2 s.v3
  let v3 := rotl64 s.v3 16
  let v3x := v3 ^^^ v2
  let v0f := add64 v0r v3x
  let v3r := rotl64 v3x 21
  let v3f := v3r ^^^ v0f
  let v2a := add64 v2 v1x
  let v1r := rotl64 v1x 17
  let v1f := v1r ^^^ v2a
  let v2f := rotl64 v2a 32
  ⟨v0f, v1f, v2f, v3f⟩

/-- A little-endian word from up to eight bytes. -/
def leWord : List Nat → Nat
  | [] => 0
  | b :: bs => b + 256 * leWord bs

/-- The full 8-byte little-endian words of the data. -/
def sipWords : List Nat → List Nat
  | b0 :: b1 :: b2 :: b3 :: b4 :: b5 :: b6 :: b7 :: rest =>
    leWord [b0, b1, b2, b3, b4, b5, b6, b7] :: sipWords rest
  | _ => []

/-- One SipHash compression step for message word `m`: `v3 ^= m`, two
SIPROUNDs, `v0 ^= m`. -/
def sipCompress (s : SipState) (m : Nat) : SipState :=
  let s1 := { s with v3 := s.v3 ^^^ m }
  let s2 := sipRound (sipRound s1)
  { s2 with v0 := s2.v0 ^^^ m }

/-- The SipHash initial state for key `(k0, k1)`. -/
def sipInit (k0 k1 : Nat) : SipState :=
  ⟨0x736f6d6570736575 ^^^ k0, 0x646f72616e646f6d ^^^ k1,
    0x6c7967656e657261 ^^^ k0, 0x7465646279746573 ^^^ k1⟩

/-- The final SipHash word: the data length (mod 256) in the top byte,
or-ed with the remaining tail bytes little-endian. -/
def sipTailWord (data : List Nat) : Nat :=
  (data.length % 256) <<< 56 ||| leWord (data.drop (8 * (data.length / 8)))

/-- The SipHash finalization from the post-compression state and the
final word `b`: `v3 ^= b`, two rounds, `v0 ^= b; v2 ^= 0xFF`, four
rounds, xor of the four words. -/
def sipFinal (s1 : SipState) (b : Nat) : Nat :=
  let s2 := { s1 with v3 := s1.v3 ^^^ b }
  let s3 := sipRound (sipRound s2)
  let s4 := { s3 with v0 := s3.v0 ^^^ b, v2 := s3.v2 ^^^ 0xFF }
  let s5 := sipRound (sipRound (sipRound (sipRound s4)))
  s5.v0 ^^^ s5.v1 ^^^ s5.v2 ^^^ s5.v3

/-- SipHash-2-4 of a byte string under key `(k0, k1)` (crypto/siphash,
modelled from the spec). -/
def sipHash (k0 k1 : Nat) (data : List Nat) : Nat :=
  sipFinal ((sipWords data).foldl sipCompress (sipInit k0 k1)) (sipTailWord data)

/-- `FastRange64 x F = (uint128(x) * F) >> 64`. -/
def fastRange64 (x F : Nat) : Nat := (x * F) >>> 64

/-- `GCSFilter::HashToRange` (blockfilter.cpp:27-33): keyed SipHash of
the element, mapped onto `[0, F)`. -/
def hashToRange (k0 k1 F : Nat) (elem : List Nat) : Nat :=
  fastRange64 (sipHash k0 k1 elem) F

/-- All state words stay below `2^64`. -/
def SipBounded (s : SipState) : Prop :=
  s.v0 < 2 ^ 64 ∧ s.v1 < 2 ^ 64 ∧ s.v2 < 2 ^ 64 ∧ s.v3 < 2 ^ 64

theorem mod_M64_lt (a : Nat) : a % M64 < 2 ^ 64 :=
  Nat.mod_lt a (by norm_num [M64])

theorem sipRound_bounded (s : SipState) (h : SipBounded s) :
    SipBounded (sipRound s) := by
  obtain ⟨h0, h1, h2, h3⟩ := h
  refine ⟨mod_M64_lt _, ?_, mod_M64_lt _, ?_⟩
  · exact Nat.xor_lt_two_pow (mod_M64_lt _) (mod_M64_lt _)
  · exact Nat.xor_lt_two_pow (mod_M64_lt _) (mod_M64_lt _)

theorem leWord_lt : ∀ bs : List Nat, (∀ b ∈ bs, b < 256) →
    leWord bs < 256 ^ bs.length := by
  intro bs
  induction bs with
  | nil => intro _; norm_num [leWord]
  | cons b bs ih =>
    intro hb
    rw [leWord, List.length_cons, pow_succ']
    have h1 := ih (fun x hx => hb x (List.mem_cons_of_mem _ hx))
    have h2 := hb b (List.mem_cons_self _ _)
    have hpos : 1 ≤ 256 ^ bs.length := Nat.one_le_pow _ _ (by norm_num)
    calc b + 256 * leWord bs < 256 + 256 * leWord bs := by omega
      _ ≤ 256 + 256 * (256 ^ bs.length - 1) := by
          have : leWord bs ≤ 256 ^ bs.length - 1 := by omega
          omega
      _ ≤ 256 * 256 ^ bs.length := by omega

theorem leWord_lt_M64 (bs : List Nat) (hb : ∀ b ∈ bs, b < 256)
    (hlen : bs.length ≤ 8) : leWord bs < 2 ^ 64 := by
  have h := leWord_lt bs hb
  calc leWord bs < 256 ^ bs.length := h
    _ ≤ 256 ^ 8 := Nat.pow_le_pow_right (by norm_num) hlen
    _ = 2 ^ 64 := by norm_num

theorem sipCompress_bounded (s : SipState) (m : Nat) (hs : SipBounded s)
    (hm : m < 2 ^ 64) : SipBounded (sipCompress s m) := by
  have h1 : SipBounded { s with v3 := s.v3 ^^^ m } :=
    ⟨hs.1, hs.2.1, hs.2.2.1, Nat.xor_lt_two_pow hs.2.2.2 hm⟩
  have h2 := sipRound_bounded _ (sipRound_bounded _ h1)
  exact ⟨Nat.xor_lt_two_pow h2.1 hm, h2.2.1, h2.2.2.1, h2.2.2.2⟩

theorem sipWords_bounded : ∀ data : List Nat, (∀ b ∈ data, b < 256) →
    ∀ w ∈ sipWords data, w < 2 ^ 64
  | b0 :: b1 :: b2 :: b3 :: b4 :: b5 :: b6 :: b7 :: rest, hb, w, hw => by
    rw [sipWords] at hw
    rcases List.mem_cons.mp hw with rfl | hw
    · apply leWord_lt_M64 _ ?_ (by simp)
      intro x hx
      have htake : ([b0, b1, b2, b3, b4, b5, b6, b7] : List Nat)
          = (b0 :: b1 :: b2 :: b3 :: b4 :: b5 :: b6 :: b7 :: rest).take 8 := rfl
      rw [htake] at hx
      exact hb x (List.mem_of_mem_take hx)
    · apply sipWords_bounded rest ?_ w hw
      intro x hx
      have hdrop : rest
          = (b0 :: b1 :: b2 :: b3 :: b4 :: b5 :: b6 :: b7 :: rest).drop 8 := rfl
      rw [hdrop] at hx
      exact hb x (List.mem_of_mem_drop hx)
  | [], _, w, hw => by cases hw
  | [_], _, w, hw => by cases hw
  | [_, _], _, w, hw => by cases hw
  | [_, _, _], _, w, hw => by cases hw
  | [_, _, _, _], _, w, hw => by cases hw
  | [_, _, _, _, _], _, w, hw => by cases hw
  | [_, _, _, _, _, _], _, w, hw => by cases hw
  | [_, _, _, _, _, _, _], _, w, hw => by cases hw

theorem foldl_sipCompress_bounded (ws : List Nat) : ∀ s : SipState,
    SipBounded s → (∀ w ∈ ws, w < 2 ^ 64) →
    SipBounded (ws.foldl sipCompress s) := by
  induction ws with
  | nil => intro s hs _; exact hs
  | cons w ws ih =>
    intro s hs hw
    rw [List.foldl_cons]
    exact ih _ (sipCompress_bounded s w hs (hw w (List.mem_cons_self _ _)))
      (fun x hx => hw x (List.mem_cons_of_mem _ hx))

theorem sipBounded_setv3 (s : SipState) (b : Nat) (hs : SipBounded s)
    (hb : b < 2 ^ 64) : SipBounded { s with v3 := s.v3 ^^^ b } :=
  ⟨hs.1, hs.2.1, hs.2.2.1, Nat.xor_lt_two_pow hs.2.2.2 hb⟩

theorem sipBounded_setv0v2 (s : SipState) (b : Nat) (hs : SipBounded s)
    (hb : b < 2 ^ 64) :
    SipBounded { s with v0 := s.v0 ^^^ b, v2 := s.v2 ^^^ 0xFF } :=
  ⟨Nat.xor_lt_two_pow hs.1 hb, hs.2.1,
    Nat.xor_lt_two_pow hs.2.2.1 (by norm_num), hs.2.2.2⟩

theorem sipTailWord_lt (data : List Nat) (hdata : ∀ b ∈ data, b < 256) :
    sipTailWord data < 2 ^ 64 := by
  rw [sipTailWord]
  apply Nat.or_lt_two_pow
  · rw [Nat.shiftLeft_eq]
    have hlt : data.length % 256 < 256 := Nat.mod_lt _ (by norm_num)
    calc data.length % 256 * 2 ^ 56 ≤ 255 * 2 ^ 56 := by
          apply Nat.mul_le_mul_right
          omega
      _ < 2 ^ 64 := by norm_num
  · apply leWord_lt_M64
    · intro x hx
      exact hdata x (List.mem_of_mem_drop hx)
    · rw [List.length_drop]
      omega

theorem sipFinal_lt (s : SipState) (b : Nat) (hs : SipBounded s)
    (hb : b < 2 ^ 64) : sipFinal s b < 2 ^ 64 := by
  have h3 := sipRound_bounded _ (sipRound_bounded _ (sipBounded_setv3 s b hs hb))
  have h4 := sipBounded_setv0v2 _ b h3 hb
  have h5 := sipRound_bounded _ (sipRound_bounded _ (sipRound_bounded _
    (sipRound_bounded _ h4)))
  exact Nat.xor_lt_two_pow (Nat.xor_lt_two_pow
    (Nat.xor_lt_two_pow h5.1 h5.2.1) h5.2.2.1) h5.2.2.2

theorem sipHash_lt (k0 k1 : Nat) (data : List Nat) (hk0 : k0 < 2 ^ 64)
    (hk1 : k1 < 2 ^ 64) (hdata : ∀ b ∈ data, b < 256) :
    sipHash k0 k1 data < 2 ^ 64 := by
  have hs0 : SipBounded (sipInit k0 k1) :=
    ⟨Nat.xor_lt_two_pow (by norm_num) hk0, Nat.xor_lt_two_pow (by norm_num) hk1,
      Nat.xor_lt_two_pow (by norm_num) hk0, Nat.xor_lt_two_pow (by norm_num) hk1⟩
  have hs1 := foldl_sipCompress_bounded (sipWords data) _ hs0
    (sipWords_bounded data hdata)
  have hb := sipTailWord_lt data hdata
  exact sipFinal_lt _ _ hs1 hb

theorem fastRange64_lt (x F : Nat) (hx : x < 2 ^ 64) (hF : 0 < F) :
    fastRange64 x F < F := by
  rw [fastRange64, Nat.shiftRight_eq_div_pow]
  rw [Nat.div_lt_iff_lt_mul (by norm_num : (0:Nat) < 2 ^ 64)]
  calc x * F < 2 ^ 64 * F := (Nat.mul_lt_mul_right hF).mpr hx
    _ = F * 2 ^ 64 := Nat.mul_comm _ _

theorem hashToRange_lt (k0 k1 F : Nat) (elem : List Nat) (hk0 : k0 < 2 ^ 64)
    (hk1 : k1 < 2 ^ 64) (helem : ∀ b ∈ elem, b < 256) (hF : 0 < F) :
    hashToRange k0 k1 F elem < F :=
  fastRange64_lt _ F (sipHash_lt k0 k1 elem hk0 hk1 helem) hF

/-- Insertion into a sorted list; `std::sort` of the hashed set is
modelled as insertion sort. -/
def insertSorted (x : Nat) : List Nat → List Nat
  | [] => [x]
  | y :: ys => if x ≤ y then x :: y :: ys else y :: insertSorted x ys

/-- Ascending sort of the hashed set
(`std::sort(hashed_elements.begin(), ...)`, blockfilter.cpp:42). -/
def sortNat : List Nat → List Nat
  | [] => []
  | x :: xs => insertSorted x (sortNat xs)

theorem mem_insertSorted (x a : Nat) : ∀ l : List Nat,
    (a ∈ insertSorted x l ↔ a = x ∨ a ∈ l) := by
  intro l
  induction l with
  | nil => simp [insertSorted]
  | cons y ys ih =>
    rw [insertSorted]
    by_cases h : x ≤ y
    · rw [if_pos h]
      simp
    · rw [if_neg h]
      simp only [List.mem_cons, ih]
      tauto

theorem insertSorted_length (x : Nat) : ∀ l : List Nat,
    (insertSorted x l).length = l.length + 1 := by
  intro l
  induction l with
  | nil => rfl
  | cons y ys ih =>
    rw [insertSorted]
    by_cases h : x ≤ y
    · rw [if_pos h]
      rfl
    · rw [if_neg h]
      simp [ih]

theorem sortNat_length : ∀ l : List Nat, (sortNat l).length = l.length := by
  intro l
  induction l with
  | nil => rfl
  | cons x xs ih =>
    rw [sortNat, insertSorted_length, ih, List.length_cons]

theorem mem_sortNat (a : Nat) : ∀ l : List Nat, (a ∈ sortNat l ↔ a ∈ l) := by
  intro l
  induction l with
  | nil => simp [sortNat]
  | cons x xs ih =>
    rw [sortNat, mem_insertSorted, ih]
    simp

theorem insertSorted_pairwise (x : Nat) : ∀ l : List Nat,
    l.Pairwise (· ≤ ·) → (insertSorted x l).Pairwise (· ≤ ·) := by
  intro l
  induction l with
  | nil => intro _; simp [insertSorted]
  | cons y ys ih =>
    intro h
    rw [List.pairwise_cons] at h
    rw [insertSorted]
    by_cases hxy : x ≤ y
    · rw [if_pos hxy]
      rw [List.pairwise_cons]
      refine ⟨?_, List.pairwise_cons.mpr h⟩
      intro z hz
      rcases List.mem_cons.mp hz with rfl | hz
      · exact hxy
      · exact le_trans hxy (h.1 z hz)
    · rw [if_neg hxy]
      rw [List.pairwise_cons]
      refine ⟨?_, ih h.2⟩
      intro z hz
      rcases (mem_insertSorted x z ys).mp hz with rfl | hz
      · omega
      · exact h.1 z hz

theorem sortNat_pairwise : ∀ l : List Nat, (sortNat l).Pairwise (· ≤ ·) := by
  intro l
  induction l with
  | nil => exact List.Pairwise.nil
  | cons x xs ih => exact insertSorted_pairwise x (sortNat xs) ih

/-- The successive deltas of a sorted value list
(`delta = value - last_value`, blockfilter.cpp:95-100). -/
def deltasFrom (last : Nat) : List Nat → List Nat
  | [] => []
  | v :: vs => (v - last) :: deltasFrom v vs

/-- The running values recovered from a delta stream
(`value += delta`, blockfilter.cpp:115-119). -/
def valuesFrom (last : Nat) : List Nat → List Nat
  | [] => []
  | d :: ds => (last + d) :: valuesFrom (last + d) ds

theorem deltasFrom_length : ∀ (l : List Nat) (last : Nat),
    (deltasFrom last l).length = l.length := by
  intro l
  induction l with
  | nil => intro last; rfl
  | cons v vs ih =>
    intro last
    rw [deltasFrom, List.length_cons, List.length_cons, ih v]

theorem valuesFrom_deltasFrom : ∀ (l : List Nat) (last : Nat),
    List.Chain' (· ≤ ·) (last :: l) →
    valuesFrom last (deltasFrom last l) = l := by
  intro l
  induction l with
  | nil => intro last _; rfl
  | cons v vs ih =>
    intro last hch
    rw [deltasFrom, valuesFrom]
    have h1 : last ≤ v := (List.chain'_cons.mp hch).1
    have h2 : List.Chain' (· ≤ ·) (v :: vs) := (List.chain'_cons.mp hch).2
    rw [Nat.add_sub_cancel' h1]
    rw [ih v h2]

theorem valuesFrom_ge : ∀ (ds : List Nat) (last : Nat),
    ∀ x ∈ valuesFrom last ds, last ≤ x := by
  intro ds
  induction ds with
  | nil => intro last x hx; cases hx
  | cons d ds ih =>
    intro last x hx
    rw [valuesFrom] at hx
    rcases List.mem_cons.mp hx with rfl | hx
    · omega
    · have := ih (last + d) x hx
      omega

/-- `GCSFilter::Params` (blockfilter.h): SipHash keys and the Golomb-Rice
parameters `P` (a `uint8_t`) and `M` (a `uint32_t`). -/
structure GCSParams where
  siphashK0 : Nat
  siphashK1 : Nat
  P : Nat
  M : Nat
deriving DecidableEq, Repr

/-- `GCSFilter::BuildHashedSet` (blockfilter.cpp:35-44): hash every
element into `[0, F)` and sort ascending. -/
def buildHashedSet (pr : GCSParams) (F : Nat) (elements : List (List Nat)) :
    List Nat :=
  sortNat (elements.map (hashToRange pr.siphashK0 pr.siphashK1 F))

/-- The `GCSFilter` constructor from an element set
(blockfilter.cpp:75-103): compact-size count, then the Golomb-Rice coded
deltas of the sorted hashed set, flushed to a byte boundary; an empty set
encodes as the bare count. -/
def gcsFilterEncode (pr : GCSParams) (elements : List (List Nat)) : List Nat :=
  writeCompactSize elements.length ++
    (if elements = [] then []
     else packBits (padTo8 (grEncodeList pr.P
        (deltasFrom 0 (buildHashedSet pr (elements.length * pr.M) elements)))))

/-- The `GCSFilter` constructor from an encoded filter with
`skip_decode_check = false` (blockfilter.cpp:50-73): read the
compact-size `N`, require it to fit `uint32_t`, decode exactly `N`
Golomb-Rice codewords (a short stream raises "end of data" inside the
bit reader), and require the byte stream to be fully consumed.  Returns
the stored element count `m_N`. -/
def gcsFilterDecodeCheck (P : Nat) (encoded : List Nat) : Except String Nat :=
  match readCompactSize encoded with
  | none => Except.error "deserialization failed"
  | some (N, rest) =>
    if N < 4294967296 then
      match grDecodeN P N (unpackBits rest) with
      | none => Except.error "end of data"
      | some (_, remaining) =>
        if remaining.length < 8 then Except.ok N
        else Except.error "encoded_filter contains excess data"
    else Except.error "N must be <2^32"

/-- The hashed-value sequence recovered by streaming `GolombRiceDecode`
with `value += delta`, as `MatchInternal` does
(blockfilter.cpp:113-119) — the "decode" of the claim. -/
def gcsDecodeValues (P : Nat) (encoded : List Nat) : Option (List Nat) :=
  match readCompactSize encoded with
  | none => none
  | some (N, rest) =>
    match grDecodeN P N (unpackBits rest) with
    | none => none
    | some (ds, _) => some (valuesFrom 0 ds)

/-- The state of `MatchInternal`'s inner `while (true)` loop: either the
whole function returns, or iteration continues with the remaining
queries. -/
inductive MatchStep where
  | ret (b : Bool)
  | cont (qs : List Nat)

/-- The inner loop of `MatchInternal` (blockfilter.cpp:121-131). -/
def matchInnerLoop (value : Nat) : List Nat → MatchStep
  | [] => MatchStep.ret false
  | q :: qs =>
    if q = value then MatchStep.ret true
    else if q > value then MatchStep.cont (q :: qs)
    else matchInnerLoop value qs

/-- The outer loop of `MatchInternal` (blockfilter.cpp:115-132): decode
`N` deltas, accumulating `value` in `uint64_t`, co-iterating the sorted
queries. -/
def matchStream (P : Nat) : Nat → List Bool → Nat → List Nat → Option Bool
  | 0, _, _, _ => some false
  | n + 1, bits, value, queries =>
    match grDecodeBits P bits with
    | none => none
    | some (delta, rest) =>
      match matchInnerLoop ((value + delta) % 2 ^ 64) queries with
      | MatchStep.ret b => some b
      | MatchStep.cont qs => matchStream P n rest ((value + delta) % 2 ^ 64) qs

/-- `GCSFilter::Match` (blockfilter.cpp:137-141) on a decoded filter:
hash the query element into `[0, N·M)` and run `MatchInternal`. -/
def gcsMatch (pr : GCSParams) (encoded : List Nat) (elem : List Nat) :
    Option Bool :=
  match readCompactSize encoded with
  | none => none
  | some (N, rest) =>
    matchStream pr.P N (unpackBits rest) 0
      [hashToRange pr.siphashK0 pr.siphashK1 (N * pr.M) elem]

/-- `MatchInternal` on an already-hashed query value. -/
def gcsMatchHashed (pr : GCSParams) (encoded : List Nat) (q : Nat) :
    Option Bool :=
  match readCompactSize encoded with
  | none => none
  | some (N, rest) => matchStream pr.P N (unpackBits rest) 0 [q]

theorem padTo8_length_mod (bits : List Bool) : (padTo8 bits).length % 8 = 0 := by
  rw [padTo8, List.length_append, List.length_replicate]
  omega

theorem unpackBits_packBits_padTo8 (bits : List Bool) :
    unpackBits (packBits (padTo8 bits)) = padTo8 bits := by
  have h := padTo8_length_mod bits
  exact unpackBits_packBits ((padTo8 bits).length / 8) _ (by omega)

theorem grDecodeN_roundtrip2 (P n : Nat) (ds : List Nat) (rest : List Bool)
    (hn : n = ds.length) :
    grDecodeN P n (grEncodeList P ds ++ rest) = some (ds, rest) := by
  subst hn
  exact grDecodeN_roundtrip P ds rest

theorem matchStream_single (P : Nat) : ∀ (ds : List Nat) (rest : List Bool)
    (v0 q : Nat), (∀ x ∈ valuesFrom v0 ds, x < 2 ^ 64) →
    matchStream P ds.length (grEncodeList P ds ++ rest) v0 [q]
      = some (decide (q ∈ valuesFrom v0 ds)) := by
  intro ds
  induction ds with
  | nil =>
    intro rest v0 q _
    rw [grEncodeList, valuesFrom]
    simp [matchStream]
  | cons d ds ih =>
    intro rest v0 q hb
    rw [List.length_cons, grEncodeList, List.append_assoc]
    simp only [matchStream, grDecodeBits_roundtrip]
    have hvlt : v0 + d < 2 ^ 64 :=
      hb _ (by rw [valuesFrom]; exact List.mem_cons_self _ _)
    rw [Nat.mod_eq_of_lt hvlt, valuesFrom]
    by_cases hq : q = v0 + d
    · simp only [matchInnerLoop, if_pos hq]
      simp [hq]
    · by_cases hgt : q > v0 + d
      · simp only [matchInnerLoop, if_neg hq, if_pos hgt]
        rw [ih rest (v0 + d) q
          (fun x hx => hb x (by rw [valuesFrom]; exact List.mem_cons_of_mem _ hx))]
        have : (q ∈ (v0 + d) :: valuesFrom (v0 + d) ds)
            ↔ (q ∈ valuesFrom (v0 + d) ds) := by
          simp [List.mem_cons, hq]
        simp [this]
      · simp only [matchInnerLoop, if_neg hq, if_neg hgt]
        have hnotmem : q ∉ (v0 + d) :: valuesFrom (v0 + d) ds := by
          intro hmem
          rcases List.mem_cons.mp hmem with h | hmem
          · exact hq h
          · have := valuesFrom_ge ds (v0 + d) q hmem
            omega
        simp [hnotmem]

theorem matchStream_single2 (P n : Nat) (ds : List Nat) (rest : List Bool)
    (v0 q : Nat) (hn : n = ds.length)
    (hb : ∀ x ∈ valuesFrom v0 ds, x < 2 ^ 64) :
    matchStream P n (grEncodeList P ds ++ rest) v0 [q]
      = some (decide (q ∈ valuesFrom v0 ds)) := by
  subst hn
  exact matchStream_single P ds rest v0 q hb

theorem buildHashedSet_chain (pr : GCSParams) (F : Nat)
    (elements : List (List Nat)) :
    List.Chain' (· ≤ ·) (0 :: buildHashedSet pr F elements) := by
  rw [List.chain'_iff_pairwise]
  exact List.pairwise_cons.mpr ⟨fun x _ => Nat.zero_le x, sortNat_pairwise _⟩

theorem buildHashedSet_length (pr : GCSParams) (F : Nat)
    (elements : List (List Nat)) :
    (buildHashedSet pr F elements).length = elements.length := by
  rw [buildHashedSet, sortNat_length, List.length_map]

theorem gcsEncode_read (pr : GCSParams) (elements : List (List Nat))
    (hN : elements.length < 2 ^ 32) (hne : elements ≠ []) :
    readCompactSize (gcsFilterEncode pr elements)
      = some (elements.length,
          packBits (padTo8 (grEncodeList pr.P (deltasFrom 0
            (buildHashedSet pr (elements.length * pr.M) elements))))) := by
  rw [gcsFilterEncode, if_neg hne]
  exact readCompactSize_roundtrip _ _ (lt_trans hN (by norm_num))

theorem gcsDecodeValues_encode (pr : GCSParams) (elements : List (List Nat))
    (hN : elements.length < 2 ^ 32) :
    gcsDecodeValues pr.P (gcsFilterEncode pr elements)
      = some (buildHashedSet pr (elements.length * pr.M) elements) := by
  by_cases hne : elements = []
  · subst hne
    rfl
  · have hdlen : (deltasFrom 0
        (buildHashedSet pr (elements.length * pr.M) elements)).length
        = elements.length := by
      rw [deltasFrom_length, buildHashedSet_length]
    rw [gcsDecodeValues]
    simp only [gcsEncode_read pr elements hN hne]
    rw [unpackBits_packBits_padTo8, padTo8]
    simp only [grDecodeN_roundtrip2 pr.P elements.length _ _ hdlen.symm]
    rw [valuesFrom_deltasFrom _ 0 (buildHashedSet_chain pr _ elements)]

theorem gcsMatch_eq_hashed (pr : GCSParams) (enc elem : List Nat)
    (N : Nat) (rest : List Nat) (h : readCompactSize enc = some (N, rest)) :
    gcsMatch pr enc elem
      = gcsMatchHashed pr enc
          (hashToRange pr.siphashK0 pr.siphashK1 (N * pr.M) elem) := by
  rw [gcsMatch, gcsMatchHashed]
  simp only [h]

theorem gcsMatchHashed_encode (pr : GCSParams) (elements : List (List Nat))
    (q : Nat) (hN : elements.length < 2 ^ 32) (hM : pr.M < 2 ^ 32)
    (hk0 : pr.siphashK0 < 2 ^ 64) (hk1 : pr.siphashK1 < 2 ^ 64)
    (helem : ∀ e ∈ elements, ∀ b ∈ e, b < 256) (hMpos : 0 < pr.M) :
    gcsMatchHashed pr (gcsFilterEncode pr elements) q
      = some (decide
          (q ∈ buildHashedSet pr (elements.length * pr.M) elements)) := by
  by_cases hne : elements = []
  · subst hne
    rfl
  · have hF64 : elements.length * pr.M < 2 ^ 64 := by
      calc elements.length * pr.M
          ≤ elements.length * 2 ^ 32 := Nat.mul_le_mul_left _ (le_of_lt hM)
        _ < 2 ^ 32 * 2 ^ 32 :=
            (Nat.mul_lt_mul_right (by norm_num : (0:Nat) < 2 ^ 32)).mpr hN
        _ = 2 ^ 64 := by norm_num
    have hFpos : 0 < elements.length * pr.M :=
      Nat.mul_pos (List.length_pos.mpr hne) hMpos
    have hsortmem : ∀ x ∈ buildHashedSet pr (elements.length * pr.M) elements,
        x < elements.length * pr.M := by
      intro x hx
      rw [buildHashedSet, mem_sortNat] at hx
      obtain ⟨e, he, rfl⟩ := List.mem_map.mp hx
      exact hashToRange_lt _ _ _ _ hk0 hk1 (helem e he) hFpos
    have hvals : valuesFrom 0 (deltasFrom 0
          (buildHashedSet pr (elements.length * pr.M) elements))
        = buildHashedSet pr (elements.length * pr.M) elements :=
      valuesFrom_deltasFrom _ 0 (buildHashedSet_chain pr _ elements)
    have hdlen : (deltasFrom 0
        (buildHashedSet pr (elements.length * pr.M) elements)).length
        = elements.length := by
      rw [deltasFrom_length, buildHashedSet_length]
    have hbound : ∀ x ∈ valuesFrom 0 (deltasFrom 0
        (buildHashedSet pr (elements.length * pr.M) elements)), x < 2 ^ 64 := by
      rw [hvals]
      intro x hx
      exact lt_trans (hsortmem x hx) hF64
    rw [gcsMatchHashed]
    simp only [gcsEncode_read pr elements hN hne]
    rw [unpackBits_packBits_padTo8, padTo8]
    rw [matchStream_single2 pr.P elements.length _ _ 0 q hdlen.symm hbound]
    rw [hvals]

/-- Well-formedness of an encoded filter, following the claim's wording:
the leading compact-size count `N` fits 32 bits, the payload is exactly
`N` Golomb-Rice codewords followed by fewer than 8 padding bits to the
byte boundary. -/
def WellFormedGCS (P : Nat) (encoded : List Nat) (N : Nat) : Prop :=
  N < 2 ^ 32 ∧ ∃ (ds : List Nat) (pad : List Bool),
    ds.length = N ∧ pad.length < 8 ∧
    (grEncodeList P ds ++ pad).length % 8 = 0 ∧
    encoded = writeCompactSize N ++ packBits (grEncodeList P ds ++ pad)

/-- C2: GCS round-trip on the code of blockfilter.cpp:75-141 — decoding
the filter encoded from an element set yields exactly the sorted hashed
values, matching any member of the set returns true (encode-then-match
has no false negatives), and the set of hashed query values in `[0, F)`
that match occupies at most a `2^-P` fraction of the range, which bounds
the false-positive probability of a non-member query by `2^-P`. -/
theorem gcs_roundtrip (pr : GCSParams) (elements : List (List Nat))
    (hN : elements.length < 2 ^ 32) (hM : pr.M < 2 ^ 32)
    (hk0 : pr.siphashK0 < 2 ^ 64) (hk1 : pr.siphashK1 < 2 ^ 64)
    (helem : ∀ e ∈ elements, ∀ b ∈ e, b < 256)
    (hPM : 2 ^ pr.P ≤ pr.M) :
    gcsDecodeValues pr.P (gcsFilterEncode pr elements)
        = some (sortNat (elements.map
            (hashToRange pr.siphashK0 pr.siphashK1 (elements.length * pr.M))))
      ∧ (∀ e ∈ elements,
          gcsMatch pr (gcsFilterEncode pr elements) e = some true)
      ∧ ((Finset.range (elements.length * pr.M)).filter
            (fun v => gcsMatchHashed pr (gcsFilterEncode pr elements) v
              = some true)).card * 2 ^ pr.P
          ≤ elements.length * pr.M := by
  have hMpos : 0 < pr.M := lt_of_lt_of_le (Nat.two_pow_pos pr.P) hPM
  refine ⟨?_, ?_, ?_⟩
  · rw [gcsDecodeValues_encode pr elements hN, buildHashedSet]
  · intro e he
    have hne : elements ≠ [] := List.ne_nil_of_mem he
    rw [gcsMatch_eq_hashed pr _ e elements.length _
      (gcsEncode_read pr elements hN hne)]
    rw [gcsMatchHashed_encode pr elements _ hN hM hk0 hk1 helem hMpos]
    have hmem : hashToRange pr.siphashK0 pr.siphashK1
          (elements.length * pr.M) e
        ∈ buildHashedSet pr (elements.length * pr.M) elements := by
      rw [buildHashedSet, mem_sortNat]
      exact List.mem_map_of_mem _ he
    simp [hmem]
  · have hsub : ((Finset.range (elements.length * pr.M)).filter
          (fun v => gcsMatchHashed pr (gcsFilterEncode pr elements) v
            = some true))
        ⊆ (buildHashedSet pr (elements.length * pr.M) elements).toFinset := by
      intro v hv
      have hmatch := (Finset.mem_filter.mp hv).2
      rw [gcsMatchHashed_encode pr elements v hN hM hk0 hk1 helem hMpos]
        at hmatch
      have hdec : decide
          (v ∈ buildHashedSet pr (elements.length * pr.M) elements) = true :=
        Option.some.inj hmatch
      rw [List.mem_toFinset]
      exact of_decide_eq_true hdec
    have hcard : ((Finset.range (elements.length * pr.M)).filter
          (fun v => gcsMatchHashed pr (gcsFilterEncode pr elements) v
            = some true)).card ≤ elements.length := by
      calc ((Finset.range (elements.length * pr.M)).filter
            (fun v => gcsMatchHashed pr (gcsFilterEncode pr elements) v
              = some true)).card
          ≤ (buildHashedSet pr (elements.length * pr.M)
              elements).toFinset.card := Finset.card_le_card hsub
        _ ≤ (buildHashedSet pr (elements.length * pr.M) elements).length :=
            (buildHashedSet pr (elements.length * pr.M)
              elements).toFinset_card_le
        _ = elements.length := buildHashedSet_length pr _ elements
    exact Nat.mul_le_mul hcard hPM

theorem gcs_roundtrip_witness :
    2 ^ 19 ≤ 784931 ∧
    (gcsDecodeValues 19 (gcsFilterEncode ⟨0, 0, 19, 784931⟩ [[0]])
        = some (sortNat ([[0]].map (hashToRange 0 0 (1 * 784931))))
      ∧ gcsMatch ⟨0, 0, 19, 784931⟩
          (gcsFilterEncode ⟨0, 0, 19, 784931⟩ [[0]]) [0] = some true) :=
  ⟨by norm_num,
    (gcs_roundtrip ⟨0, 0, 19, 784931⟩ [[0]] (by norm_num) (by norm_num)
        (by norm_num) (by norm_num) (by decide)
        (by norm_num : (2:Nat) ^ 19 ≤ 784931)).1,
    (gcs_roundtrip ⟨0, 0, 19, 784931⟩ [[0]] (by norm_num) (by norm_num)
        (by norm_num) (by norm_num) (by decide)
        (by norm_num : (2:Nat) ^ 19 ≤ 784931)).2.1 [0] (by decide)⟩

/-- C10: constructing the filter from an encoded byte vector with
`skip_decode_check = false` succeeds with stored count `N` if and only
if the encoding is well-formed — the compact-size count fits 32 bits,
the bit stream holds at least `N` Golomb-Rice codewords, and only
sub-byte padding remains after the `N`-th; otherwise a decode error is
raised. -/
theorem gcsDecodeCheck_iff (P N : Nat) (encoded : List Nat)
    (hbytes : ∀ b ∈ encoded, b < 256) :
    gcsFilterDecodeCheck P encoded = Except.ok N
      ↔ WellFormedGCS P encoded N := by
  constructor
  · intro h
    rw [gcsFilterDecodeCheck] at h
    cases hread : readCompactSize encoded with
    | none =>
      simp only [hread] at h
      exact Except.noConfusion h
    | some pair =>
      obtain ⟨N2, rest⟩ := pair
      simp only [hread] at h
      by_cases h32 : N2 < 4294967296
      · rw [if_pos h32] at h
        cases hdec : grDecodeN P N2 (unpackBits rest) with
        | none =>
          simp only [hdec] at h
          exact Except.noConfusion h
        | some pair2 =>
          obtain ⟨ds, remaining⟩ := pair2
          simp only [hdec] at h
          by_cases hrem : remaining.length < 8
          · rw [if_pos hrem] at h
            injection h with hNN
            subst hNN
            have henc := readCompactSize_complete encoded N2 rest hbytes hread
            have hrest : ∀ b ∈ rest, b < 256 := by
              intro b hb
              apply hbytes
              rw [henc]
              exact List.mem_append_right _ hb
            obtain ⟨hdsl, hbits⟩ :=
              grDecodeN_complete P N2 (unpackBits rest) ds remaining hdec
            refine ⟨lt_of_lt_of_le h32 (by norm_num), ds, remaining, hdsl,
              hrem, ?_, ?_⟩
            · rw [← hbits, unpackBits_length]
              omega
            · rw [henc]
              rw [← hbits, packBits_unpackBits rest hrest]
          · rw [if_neg hrem] at h
            exact Except.noConfusion h
      · rw [if_neg h32] at h
        exact Except.noConfusion h
  · rintro ⟨h32, ds, pad, hdsl, hpad, hmod, henc⟩
    subst henc
    rw [gcsFilterDecodeCheck]
    simp only [readCompactSize_roundtrip N (packBits (grEncodeList P ds ++ pad))
      (lt_of_lt_of_le h32 (by norm_num))]
    rw [if_pos (lt_of_lt_of_le h32 (by norm_num : (2:Nat) ^ 32 ≤ 4294967296))]
    have hunp : unpackBits (packBits (grEncodeList P ds ++ pad))
        = grEncodeList P ds ++ pad :=
      unpackBits_packBits ((grEncodeList P ds ++ pad).length / 8) _ (by omega)
    rw [hunp]
    simp only [grDecodeN_roundtrip2 P N ds pad hdsl.symm]
    rw [if_pos hpad]

theorem gcsDecodeCheck_iff_witness :
    gcsFilterDecodeCheck 19 [0] = Except.ok 0 :=
  (gcsDecodeCheck_iff 19 0 [0] (by decide)).mpr
    ⟨by norm_num, [], [], rfl, by norm_num, rfl,
      by rw [packBits]; simp [writeCompactSize, grEncodeList]⟩

end GCS
